import Mathlib

/-!
Verification of the SSH certificate issuance orchestration flow
(src/command/ssh/certificate.go, function sshCertificateAction and its
helpers marshalPublicKey and sshAddKeyToAgent).

The flow is embedded shallowly: external collaborators (token minting, CA
client, key generation, PEM serialization, file writes, the ssh agent) are
oracles supplied as inputs, and the flow is a pure function from the parsed
command context and those oracles to a result together with a trace of the
side effects it performed, in order.
-/

/-- A public key or certificate in authorized-key wire text form: the key
type field and the base64 blob field. The base64 encoding itself is an
external collaborator; blob equality stands for key byte equality since
standard base64 is injective. -/
structure SSHKey where
  keyType : List Char
  blob64 : List Char
deriving DecidableEq, Repr

/-- Response of the CA SignSSH exchange (api.SignSSHResponse): the main
certificate and, in add-user mode, the auxiliary certificate. -/
structure SignResponse where
  certificate : SSHKey
  addUserCertificate : SSHKey
deriving DecidableEq, Repr

/-- Certificate type selected by the host flag (provisioner.SSHHostCert or
provisioner.SSHUserCert). -/
inductive CertType where
  | user
  | host
deriving DecidableEq, Repr

/-- Password option appended to the pemutil.Serialize call for a private
key: none at all, WithPasswordFile, or WithPasswordPrompt. -/
inductive PwOpt where
  | noEnc
  | file (path : String)
  | prompt
deriving DecidableEq, Repr

/-- The five validation errors of the switch at certificate.go lines
232-244, in source order. -/
inductive VErr where
  | requiredInsecure
  | noPasswordWithPasswordFile
  | tokenWithProvisionerPasswordFile
  | hostWithAddUser
  | addUserMultiplePrincipals
deriving DecidableEq, Repr

/-- Fatal errors the action can return, one constructor per return site
kind. Collaborator error messages are opaque strings. -/
inductive Err where
  | timeParse (m : String)
  | validation (e : VErr)
  | flow (m : String)
  | token (m : String)
  | client (m : String)
  | readFile (m : String)
  | parseKey (m : String)
  | keygen (m : String)
  | sign (m : String)
  | write (path : String)
deriving DecidableEq, Repr

instance {e a : Type} [DecidableEq e] [DecidableEq a] : DecidableEq (Except e a) := fun x y =>
  match x, y with
  | .error u, .error v =>
    if h : u = v then isTrue (by rw [h]) else isFalse (by intro hc; cases hc; exact h rfl)
  | .error _, .ok _ => isFalse (by intro hc; cases hc)
  | .ok _, .error _ => isFalse (by intro hc; cases hc)
  | .ok u, .ok v =>
    if h : u = v then isTrue (by rw [h]) else isFalse (by intro hc; cases hc; exact h rfl)

/-- Observable side effects of one invocation, recorded in order. -/
inductive Effect where
  | genToken (passwordFileFlag : String)
  | fsRead (path : String)
  | signRequest (principals : List String) (certType : CertType) (hasAuxKey : Bool)
  | serialize (path : String) (mode : Nat) (pw : PwOpt)
  | fsWrite (path : String) (mode : Nat) (content : List Char)
  | agentDial
  | warnAgent
deriving DecidableEq, Repr

/-- The two positional arguments and the flag values read at the start of
sshCertificateAction (certificate.go lines 205-222). -/
structure Ctx where
  subject : String
  keyFile : String
  token : String
  isHost : Bool
  isSign : Bool
  isAddUser : Bool
  principals : List String
  passwordFile : String
  provisionerPasswordFile : String
  noPassword : Bool
  insecure : Bool
deriving DecidableEq, Repr

/-- Results of the external collaborators for one invocation: time flag
parsing, flow construction, token minting, client construction, public key
file read and parse, the two key pair generations, the signing exchange,
per-path file write success, and the agent registration. -/
structure Oracles where
  parseTime : Except String Unit
  newFlow : Except String Unit
  genToken : Except String String
  getClient : Except String Unit
  readFile : Except String Unit
  parseKey : Except String SSHKey
  genKeyPair : Except String SSHKey
  genAuxKeyPair : Except String SSHKey
  signSSH : Except String SignResponse
  writeOk : String → Bool
  agentResult : Except String Unit

/-- Index of the last occurrence of a character in a list, like
bytes.LastIndex and strings.LastIndex restricted to one character. -/
def lastIndexOf (c : Char) : List Char → Option Nat
  | [] => none
  | x :: xs =>
    match lastIndexOf c xs with
    | some i => some (i + 1)
    | none => if x = c then some 0 else none

/-- Modelled from the spec: SanitizeSSHUserPrincipal of the external
provisioner collaborator, which derives a bare username from the subject by
stripping a trailing at-domain suffix if present, so mariano at work
becomes mariano. -/
def SanitizeSSHUserPrincipal (s : String) : String :=
  match lastIndexOf '@' s.data with
  | some i => ⟨s.data.take i⟩
  | none => s

/-- Modelled from the spec: ssh.MarshalAuthorizedKey of the external ssh
collaborator, serializing a key as the key type field, a space, the base64
blob and a terminating newline. -/
def marshalAuthorizedKey (k : SSHKey) : List Char :=
  k.keyType ++ ' ' :: k.blob64 ++ ['\n']

/-- marshalPublicKey (certificate.go lines 402-408): serialize the key in
authorized-key form and splice the subject comment in front of the final
newline, or append it when there is none. -/
def marshalPublicKey (k : SSHKey) (subject : String) : List Char :=
  let b := marshalAuthorizedKey k
  match lastIndexOf '\n' b with
  | some i => b.take i ++ ' ' :: subject.data ++ ['\n']
  | none => b ++ ' ' :: subject.data ++ ['\n']

/-- The whitespace set of the authorized-key parser (space, tab, newline,
vertical tab, form feed, carriage return). -/
def isGoSpace (c : Char) : Bool :=
  c = ' ' || c = '\t' || c = '\n' || c = '\x0b' || c = '\x0c' || c = '\r'

/-- Field separators of the authorized-key format: space and tab. -/
def isSpaceTab (c : Char) : Bool :=
  c = ' ' || c = '\t'

/-- Elements before the first occurrence of a character. -/
def takeUntil (c : Char) : List Char → List Char
  | [] => []
  | x :: xs => if x = c then [] else x :: takeUntil c xs

/-- Drop leading whitespace. -/
def trimLeftSpace (l : List Char) : List Char :=
  l.dropWhile isGoSpace

/-- Drop trailing whitespace. -/
def trimRightSpace (l : List Char) : List Char :=
  (l.reverse.dropWhile isGoSpace).reverse

/-- Drop leading and trailing whitespace, like bytes.TrimSpace. -/
def goTrimSpace (l : List Char) : List Char :=
  trimRightSpace (trimLeftSpace l)

/-- Index of the first space or tab, like bytes.IndexAny with a space-tab
cutset. -/
def firstSpaceTab : List Char → Option Nat
  | [] => none
  | x :: xs => if isSpaceTab x then some 0 else (firstSpaceTab xs).map (· + 1)

/-- Modelled from the spec: re-parsing authorized-key text, following the
external ssh.ParseAuthorizedKey contract on a single entry. The first line
is isolated, trimmed, rejected when empty or a comment line, then split
into the key type field, the base64 blob field and the trimmed trailing
comment. Returns the key type, the blob and the comment. -/
def parseAuthorizedKey (input : List Char) : Option (List Char × List Char × List Char) :=
  let line := goTrimSpace (takeUntil '\r' (takeUntil '\n' input))
  match line with
  | [] => none
  | c0 :: _ =>
    if c0 = '#' then none
    else
      match firstSpaceTab line with
      | none => none
      | some i =>
        let keyTypeField := line.take i
        let rest := goTrimSpace (line.drop i)
        let j := (firstSpaceTab rest).getD rest.length
        let blobField := rest.take j
        if blobField = [] then none
        else some (keyTypeField, blobField, goTrimSpace (rest.drop j))

/-- The validation switch (certificate.go lines 232-244), evaluated on the
locally read flag values, first matching case wins. -/
def validate (ctx : Ctx) : Option VErr :=
  if ctx.noPassword = true ∧ ctx.insecure = false then some .requiredInsecure
  else if ctx.noPassword = true ∧ ctx.passwordFile ≠ "" then some .noPasswordWithPasswordFile
  else if ctx.token ≠ "" ∧ ctx.provisionerPasswordFile ≠ "" then some .tokenWithProvisionerPasswordFile
  else if ctx.isHost = true ∧ ctx.isAddUser = true then some .hostWithAddUser
  else if ctx.isAddUser = true ∧ 1 < ctx.principals.length then some .addUserMultiplePrincipals
  else none

/-- keyFile with its final four bytes removed, the Go slice
keyFile[:len(keyFile)-4] used to strip a .pub suffix. -/
def stripDotPub (s : String) : String :=
  ⟨s.data.take (s.data.length - 4)⟩

/-- Suffix test, like strings.HasSuffix. -/
def goHasSuffix (s suffix : String) : Bool :=
  suffix.data.isSuffixOf s.data

/-- The base name after the sign-mode adjustment (certificate.go lines
246-250): in sign mode a .pub suffix of the key file is stripped. -/
def baseNameOf (ctx : Ctx) : String :=
  if ctx.isSign = true ∧ goHasSuffix ctx.keyFile ".pub" = true then stripDotPub ctx.keyFile
  else ctx.keyFile

/-- Public key path (certificate.go line 210), fixed before the sign-mode
base name adjustment. -/
def pubFileOf (ctx : Ctx) : String :=
  ctx.keyFile ++ ".pub"

/-- Certificate path: initially keyFile plus the certificate suffix (line
211), recomputed from the stripped base name in sign mode (line 249). -/
def crtFileOf (ctx : Ctx) : String :=
  baseNameOf ctx ++ "-cert.pub"

/-- Password policy for the main private key serialization (certificate.go
lines 344-350): nothing when no-password and insecure are both set, the
password file when one was given, otherwise an interactive prompt. -/
def pwOptOf (ctx : Ctx) : PwOpt :=
  if ctx.noPassword = true ∧ ctx.insecure = true then .noEnc
  else if ctx.passwordFile ≠ "" then .file ctx.passwordFile
  else .prompt

/-- Principal list resolution (certificate.go lines 259-266): a supplied
list passes through unchanged, an empty list defaults to the subject for
host certificates and the sanitized subject for user certificates. -/
def resolvePrincipals (ctx : Ctx) : List String :=
  if ctx.principals = [] then
    if ctx.isHost = true then [ctx.subject] else [SanitizeSSHUserPrincipal ctx.subject]
  else ctx.principals

/-- Certificate type selection (certificate.go lines 252-257). -/
def certTypeOf (ctx : Ctx) : CertType :=
  if ctx.isHost = true then .host else .user

/-- The comment label of the auxiliary add-user artifacts (certificate.go
line 368). -/
def addUserIdOf (ctx : Ctx) : String :=
  SanitizeSSHUserPrincipal ctx.subject ++ "-provisioner"

/-- One pending artifact write: a private key serialization with its
password option, or a plain file write with its content. -/
inductive WriteStep where
  | serialize (path : String) (mode : Nat) (pw : PwOpt)
  | fileWrite (path : String) (mode : Nat) (content : List Char)
deriving DecidableEq, Repr

/-- Target path of a write step. -/
def WriteStep.path : WriteStep → String
  | .serialize p _ _ => p
  | .fileWrite p _ _ => p

/-- The trace entry of attempting a write step. -/
def WriteStep.effectOf : WriteStep → Effect
  | .serialize p m pw => .serialize p m pw
  | .fileWrite p m c => .fsWrite p m c

/-- The ordered artifact writes of certificate.go lines 338-378: in
generate mode the 0600 private key serialization and the 0644 public key
write, then the 0644 certificate write, then in add-user mode the
auxiliary private key serialization (0600, no password option) and the two
auxiliary 0644 writes with the provisioner comment. -/
def writePlan (ctx : Ctx) (sshPub cert auPub auCert : SSHKey) : List WriteStep :=
  (if ctx.isSign = true then []
   else
     [WriteStep.serialize ctx.keyFile 0o600 (pwOptOf ctx),
      WriteStep.fileWrite (pubFileOf ctx) 0o644 (marshalPublicKey sshPub ctx.subject)])
  ++ [WriteStep.fileWrite (crtFileOf ctx) 0o644 (marshalPublicKey cert ctx.subject)]
  ++ (if ctx.isAddUser = true then
        [WriteStep.serialize (baseNameOf ctx ++ "-provisioner") 0o600 PwOpt.noEnc,
         WriteStep.fileWrite (baseNameOf ctx ++ "-provisioner.pub") 0o644
           (marshalPublicKey auPub (addUserIdOf ctx)),
         WriteStep.fileWrite (baseNameOf ctx ++ "-provisioner-cert.pub") 0o644
           (marshalPublicKey auCert (addUserIdOf ctx))]
      else [])

/-- Execute write steps in order: each step is attempted, and the first
failing step aborts with a write error for its path; nothing is ever
removed. -/
def runWrites (ok : String → Bool) : List WriteStep → Except Err Unit × List Effect
  | [] => (.ok (), [])
  | w :: ws =>
    if ok w.path then
      ((runWrites ok ws).1, w.effectOf :: (runWrites ok ws).2)
    else (.error (.write w.path), [w.effectOf])

/-- The signing request effect (certificate.go lines 325-333): the resolved
principals, the certificate type and whether an auxiliary add-user public
key accompanies the request. -/
def signEffectOf (ctx : Ctx) : Effect :=
  .signRequest (resolvePrincipals ctx) (certTypeOf ctx) ctx.isAddUser

/-- Key material stage (certificate.go lines 283-308): in sign mode read
and parse the given public key file, otherwise generate a fresh key pair.
Only the generate branch yields a private key. -/
def keyStage (ctx : Ctx) (o : Oracles) : Except Err SSHKey × List Effect :=
  if ctx.isSign = true then
    match o.readFile with
    | .error m => (.error (.readFile m), [.fsRead ctx.keyFile])
    | .ok _ =>
      match o.parseKey with
      | .error m => (.error (.parseKey m), [.fsRead ctx.keyFile])
      | .ok k => (.ok k, [.fsRead ctx.keyFile])
  else
    match o.genKeyPair with
    | .error m => (.error (.keygen m), [])
    | .ok k => (.ok k, [])

/-- Auxiliary key stage (certificate.go lines 310-323): in add-user mode a
second key pair is always freshly generated. -/
def auxStage (ctx : Ctx) (o : Oracles) : Except Err SSHKey :=
  if ctx.isAddUser = true then
    match o.genAuxKeyPair with
    | .error m => .error (.keygen m)
    | .ok k => .ok k
  else .ok ⟨[], []⟩

/-- Artifact writes followed by the agent step (certificate.go lines
338-399): a write failure aborts with that error; otherwise the agent is
dialed, and an agent failure is only warned about while the action
succeeds. -/
def writeAndRegister (ctx : Ctx) (o : Oracles) (sshPub auPub : SSHKey) (resp : SignResponse) :
    Except Err Unit × List Effect :=
  match runWrites o.writeOk (writePlan ctx sshPub resp.certificate auPub resp.addUserCertificate) with
  | (.error e, wt) => (.error e, wt)
  | (.ok _, wt) =>
    match o.agentResult with
    | .error _m => (.ok (), wt ++ [.agentDial, .warnAgent])
    | .ok _ => (.ok (), wt ++ [.agentDial])

/-- The stages after token acquisition: client construction, key material,
auxiliary key material, the signing exchange, then writes and agent
registration, with the accumulated earlier trace threaded through. -/
def restAfterToken (ctx : Ctx) (o : Oracles) (tokTrace : List Effect) :
    Except Err Unit × List Effect :=
  match o.getClient with
  | .error m => (.error (.client m), tokTrace)
  | .ok _ =>
    match keyStage ctx o with
    | (.error e, kt) => (.error e, tokTrace ++ kt)
    | (.ok sshPub, kt) =>
      match auxStage ctx o with
      | .error e => (.error e, tokTrace ++ kt)
      | .ok auPub =>
        match o.signSSH with
        | .error m => (.error (.sign m), tokTrace ++ kt ++ [signEffectOf ctx])
        | .ok resp =>
          match writeAndRegister ctx o sshPub auPub resp with
          | (r, wt) => (r, tokTrace ++ kt ++ [signEffectOf ctx] ++ wt)

/-- sshCertificateAction (certificate.go lines 200-400): parse the time
flags, overwrite the password-file flag of the context with the
provisioner password file (line 230, reflected in the genToken effect
while every later use of the password file reads the local value),
validate the flag combination before any side effect, then mint a token
when none was supplied and run the remaining stages. -/
def sshCertificateAction (ctx : Ctx) (o : Oracles) : Except Err Unit × List Effect :=
  match o.parseTime with
  | .error m => (.error (.timeParse m), [])
  | .ok _ =>
    match validate ctx with
    | some e => (.error (.validation e), [])
    | none =>
      match o.newFlow with
      | .error m => (.error (.flow m), [])
      | .ok _ =>
        if ctx.token = "" then
          match o.genToken with
          | .error m => (.error (.token m), [.genToken ctx.provisionerPasswordFile])
          | .ok _t => restAfterToken ctx o [.genToken ctx.provisionerPasswordFile]
        else restAfterToken ctx o []

/-- Paths of the write steps attempted in a trace, in order. -/
def writeAttempts : List Effect → List String
  | [] => []
  | .serialize p _ _ :: es => p :: writeAttempts es
  | .fsWrite p _ _ :: es => p :: writeAttempts es
  | _ :: es => writeAttempts es

/-! ### Helper lemmas about the write executor and traces -/

theorem effectOf_shape (w : WriteStep) :
    (∃ p m pw, w.effectOf = Effect.serialize p m pw) ∨
    (∃ p m c, w.effectOf = Effect.fsWrite p m c) := by
  cases w with
  | serialize p m pw => exact Or.inl ⟨p, m, pw, rfl⟩
  | fileWrite p m c => exact Or.inr ⟨p, m, c, rfl⟩

theorem runWrites_effect_mem (ok : String → Bool) (ws : List WriteStep) (e : Effect)
    (h : e ∈ (runWrites ok ws).2) : ∃ w ∈ ws, e = w.effectOf := by
  induction ws with
  | nil => simp [runWrites] at h
  | cons w ws ih =>
    by_cases hw : ok w.path
    · simp only [runWrites, hw, if_true, List.mem_cons] at h
      rcases h with h | h
      · exact ⟨w, by simp, h⟩
      · obtain ⟨u, hu, he⟩ := ih h
        exact ⟨u, by simp [hu], he⟩
    · simp only [runWrites, hw, if_false, Bool.false_eq_true, List.mem_singleton] at h
      exact ⟨w, by simp, h⟩

theorem runWrites_no_agentDial (ok : String → Bool) (ws : List WriteStep) :
    Effect.agentDial ∉ (runWrites ok ws).2 := by
  intro h
  obtain ⟨w, _, he⟩ := runWrites_effect_mem ok ws Effect.agentDial h
  rcases effectOf_shape w with ⟨p, m, pw, hw⟩ | ⟨p, m, c, hw⟩ <;> rw [hw] at he <;> cases he

theorem runWrites_result (ok : String → Bool) (ws : List WriteStep) :
    (runWrites ok ws).1 = .ok () ∨ ∃ p, (runWrites ok ws).1 = .error (.write p) := by
  induction ws with
  | nil => exact Or.inl rfl
  | cons w ws ih =>
    by_cases hw : ok w.path
    · simpa [runWrites, hw] using ih
    · exact Or.inr ⟨w.path, by simp [runWrites, hw]⟩

theorem runWrites_spec (ok : String → Bool) (ws : List WriteStep) :
    ((∀ w ∈ ws, ok w.path = true) ∧
      runWrites ok ws = (.ok (), ws.map WriteStep.effectOf))
    ∨ (∃ pre w post, ws = pre ++ w :: post ∧ (∀ u ∈ pre, ok u.path = true) ∧
        ok w.path = false ∧
        runWrites ok ws = (.error (.write w.path), (pre ++ [w]).map WriteStep.effectOf)) := by
  induction ws with
  | nil => exact Or.inl ⟨by simp, rfl⟩
  | cons w ws ih =>
    by_cases hw : ok w.path
    · rcases ih with ⟨hall, heq⟩ | ⟨pre, u, post, hsplit, hpre, hu, heq⟩
      · refine Or.inl ⟨?_, ?_⟩
        · intro x hx
          rcases List.mem_cons.mp hx with rfl | hx
          · exact hw
          · exact hall x hx
        · simp [runWrites, hw, heq]
      · refine Or.inr ⟨w :: pre, u, post, by simp [hsplit], ?_, hu, ?_⟩
        · intro x hx
          rcases List.mem_cons.mp hx with rfl | hx
          · exact hw
          · exact hpre x hx
        · simp [runWrites, hw, heq]
    · refine Or.inr ⟨[], w, ws, by simp, by simp, by simpa using hw, ?_⟩
      simp [runWrites, hw]

theorem writeAttempts_append (a b : List Effect) :
    writeAttempts (a ++ b) = writeAttempts a ++ writeAttempts b := by
  induction a with
  | nil => rfl
  | cons e es ih => cases e <;> simp [writeAttempts, ih]

theorem writeAttempts_map_effectOf (ws : List WriteStep) :
    writeAttempts (ws.map WriteStep.effectOf) = ws.map WriteStep.path := by
  induction ws with
  | nil => rfl
  | cons w ws ih => cases w <;> simp [writeAttempts, WriteStep.effectOf, WriteStep.path, ih]

theorem writeAttempts_nil_of_fsRead (l : List Effect) (p : String)
    (h : ∀ e ∈ l, e = Effect.fsRead p) : writeAttempts l = [] := by
  induction l with
  | nil => rfl
  | cons e es ih =>
    have he := h e (by simp)
    subst he
    exact ih (fun x hx => h x (by simp [hx]))

/-! ### Helper lemmas about the stages -/

theorem keyStage_trace (ctx : Ctx) (o : Oracles) :
    ∀ e ∈ (keyStage ctx o).2, e = Effect.fsRead ctx.keyFile := by
  intro e he
  by_cases hs : ctx.isSign = true
  · simp only [keyStage, hs, if_true] at he
    cases hro : o.readFile with
    | error m => simp [hro] at he; exact he
    | ok u =>
      cases hrp : o.parseKey with
      | error m => simp [hro, hrp] at he; exact he
      | ok k => simp [hro, hrp] at he; exact he
  · simp only [keyStage, hs, if_false] at he
    cases hrg : o.genKeyPair with
    | error m => simp [hrg] at he
    | ok k => simp [hrg] at he

theorem writeAndRegister_agent_iff (ctx : Ctx) (o : Oracles) (k a : SSHKey) (r : SignResponse) :
    Effect.agentDial ∈ (writeAndRegister ctx o k a r).2 ↔
      (writeAndRegister ctx o k a r).1 = .ok () := by
  unfold writeAndRegister
  rcases hrw : runWrites o.writeOk (writePlan ctx k r.certificate a r.addUserCertificate)
    with ⟨res, wt⟩
  have hnd : Effect.agentDial ∉ wt := by
    have := runWrites_no_agentDial o.writeOk
      (writePlan ctx k r.certificate a r.addUserCertificate)
    rw [hrw] at this
    exact this
  cases res with
  | error e => simp [hnd]
  | ok u =>
    cases hag : o.agentResult with
    | error m => simp
    | ok v => simp

theorem writeAndRegister_result (ctx : Ctx) (o : Oracles) (k a : SSHKey) (r : SignResponse) :
    (writeAndRegister ctx o k a r).1 = .ok () ∨
      ∃ p, (writeAndRegister ctx o k a r).1 = .error (.write p) := by
  unfold writeAndRegister
  rcases hrw : runWrites o.writeOk (writePlan ctx k r.certificate a r.addUserCertificate)
    with ⟨res, wt⟩
  have hres := runWrites_result o.writeOk (writePlan ctx k r.certificate a r.addUserCertificate)
  rw [hrw] at hres
  cases res with
  | error e =>
    rcases hres with h | ⟨p, hp⟩
    · cases h
    · exact Or.inr ⟨p, by simp only [Prod.fst] at hp; simp [hp]⟩
  | ok u =>
    cases hag : o.agentResult with
    | error m => exact Or.inl (by simp)
    | ok v => exact Or.inl (by simp)

theorem writeAndRegister_trace_shape (ctx : Ctx) (o : Oracles) (k a : SSHKey) (r : SignResponse) :
    ∀ e ∈ (writeAndRegister ctx o k a r).2,
      (∃ w ∈ writePlan ctx k r.certificate a r.addUserCertificate, e = w.effectOf) ∨
        e = Effect.agentDial ∨ e = Effect.warnAgent := by
  intro e he
  unfold writeAndRegister at he
  rcases hrw : runWrites o.writeOk (writePlan ctx k r.certificate a r.addUserCertificate)
    with ⟨res, wt⟩
  rw [hrw] at he
  have hwt : ∀ x ∈ wt, ∃ w ∈ writePlan ctx k r.certificate a r.addUserCertificate,
      x = w.effectOf := by
    intro x hx
    refine runWrites_effect_mem o.writeOk _ x ?_
    rw [hrw]
    exact hx
  cases res with
  | error er =>
    simp only at he
    exact Or.inl (hwt e he)
  | ok u =>
    cases hag : o.agentResult with
    | error m =>
      rw [hag] at he
      simp only [List.mem_append, List.mem_cons, List.mem_singleton] at he
      rcases he with he | he | he | he
      · exact Or.inl (hwt e he)
      · exact Or.inr (Or.inl he)
      · exact Or.inr (Or.inr he)
      · cases he
    | ok v =>
      rw [hag] at he
      simp only [List.mem_append, List.mem_singleton] at he
      rcases he with he | he
      · exact Or.inl (hwt e he)
      · exact Or.inr (Or.inl he)

theorem writePlan_serialize_cases (ctx : Ctx) (k c a ac : SSHKey) (p : String) (m : Nat)
    (pw : PwOpt) (h : WriteStep.serialize p m pw ∈ writePlan ctx k c a ac) :
    m = 0o600 ∧
      ((ctx.isSign = false ∧ p = ctx.keyFile ∧ pw = pwOptOf ctx) ∨
        (ctx.isAddUser = true ∧ p = baseNameOf ctx ++ "-provisioner" ∧ pw = PwOpt.noEnc)) := by
  rcases Bool.eq_false_or_eq_true ctx.isSign with hs | hs <;>
    rcases Bool.eq_false_or_eq_true ctx.isAddUser with ha | ha <;>
      simp [writePlan, hs, ha] at h
  · rcases h with ⟨hp, hm, hpw⟩
    exact ⟨hm, Or.inr ⟨ha, hp, hpw⟩⟩
  · rcases h with ⟨hp, hm, hpw⟩ | ⟨hp, hm, hpw⟩
    · exact ⟨hm, Or.inl ⟨hs, hp, hpw⟩⟩
    · exact ⟨hm, Or.inr ⟨ha, hp, hpw⟩⟩
  · rcases h with ⟨hp, hm, hpw⟩
    exact ⟨hm, Or.inl ⟨hs, hp, hpw⟩⟩

theorem keyStage_error_shape (ctx : Ctx) (o : Oracles) (er : Err)
    (h : (keyStage ctx o).1 = .error er) :
    (∃ m, er = .readFile m) ∨ (∃ m, er = .parseKey m) ∨ (∃ m, er = .keygen m) := by
  by_cases hs : ctx.isSign = true
  · simp only [keyStage, hs, if_true] at h
    cases hro : o.readFile with
    | error m =>
      rw [hro] at h
      simp at h
      exact Or.inl ⟨m, h.symm⟩
    | ok u =>
      rw [hro] at h
      cases hrp : o.parseKey with
      | error m =>
        rw [hrp] at h
        simp at h
        exact Or.inr (Or.inl ⟨m, h.symm⟩)
      | ok k =>
        rw [hrp] at h
        simp at h
  · simp only [keyStage, hs, if_false] at h
    cases hrg : o.genKeyPair with
    | error m =>
      rw [hrg] at h
      simp at h
      exact Or.inr (Or.inr ⟨m, h.symm⟩)
    | ok k =>
      rw [hrg] at h
      simp at h

theorem auxStage_error_shape (ctx : Ctx) (o : Oracles) (er : Err)
    (h : auxStage ctx o = .error er) : ∃ m, er = .keygen m := by
  by_cases ha : ctx.isAddUser = true
  · simp only [auxStage, ha, if_true] at h
    cases hrg : o.genAuxKeyPair with
    | error m =>
      rw [hrg] at h
      simp at h
      exact ⟨m, h.symm⟩
    | ok k =>
      rw [hrg] at h
      simp at h
  · simp only [auxStage, ha, if_false] at h
    cases h

theorem restAfterToken_cases (ctx : Ctx) (o : Oracles) (tt : List Effect) :
    (∃ m, o.getClient = .error m ∧ restAfterToken ctx o tt = (.error (.client m), tt)) ∨
    (∃ er kt, keyStage ctx o = (.error er, kt) ∧
        restAfterToken ctx o tt = (.error er, tt ++ kt)) ∨
    (∃ k kt er, keyStage ctx o = (.ok k, kt) ∧ auxStage ctx o = .error er ∧
        restAfterToken ctx o tt = (.error er, tt ++ kt)) ∨
    (∃ k kt a m, keyStage ctx o = (.ok k, kt) ∧ auxStage ctx o = .ok a ∧
        o.signSSH = .error m ∧
        restAfterToken ctx o tt = (.error (.sign m), tt ++ kt ++ [signEffectOf ctx])) ∨
    (∃ k kt a resp, keyStage ctx o = (.ok k, kt) ∧ auxStage ctx o = .ok a ∧
        o.signSSH = .ok resp ∧
        restAfterToken ctx o tt = ((writeAndRegister ctx o k a resp).1,
          tt ++ kt ++ [signEffectOf ctx] ++ (writeAndRegister ctx o k a resp).2)) := by
  cases hgc : o.getClient with
  | error m => exact Or.inl ⟨m, rfl, by simp [restAfterToken, hgc]⟩
  | ok u =>
    rcases hks : keyStage ctx o with ⟨kres, kt⟩
    cases kres with
    | error er =>
      exact Or.inr (Or.inl ⟨er, kt, rfl, by simp [restAfterToken, hgc, hks]⟩)
    | ok sshPub =>
      cases hax : auxStage ctx o with
      | error er =>
        exact Or.inr (Or.inr (Or.inl ⟨sshPub, kt, er, rfl, rfl,
          by simp [restAfterToken, hgc, hks, hax]⟩))
      | ok auPub =>
        cases hss : o.signSSH with
        | error m =>
          exact Or.inr (Or.inr (Or.inr (Or.inl ⟨sshPub, kt, auPub, m, rfl, rfl, rfl,
            by simp [restAfterToken, hgc, hks, hax, hss]⟩)))
        | ok resp =>
          refine Or.inr (Or.inr (Or.inr (Or.inr ⟨sshPub, kt, auPub, resp, rfl, rfl, rfl, ?_⟩)))
          rcases hwr : writeAndRegister ctx o sshPub auPub resp with ⟨r, wt⟩
          simp [restAfterToken, hgc, hks, hax, hss, hwr]

theorem sshCertificateAction_cases (ctx : Ctx) (o : Oracles) :
    (∃ m, o.parseTime = .error m ∧ sshCertificateAction ctx o = (.error (.timeParse m), [])) ∨
    (o.parseTime = .ok () ∧ ∃ e, validate ctx = some e ∧
        sshCertificateAction ctx o = (.error (.validation e), [])) ∨
    (o.parseTime = .ok () ∧ validate ctx = none ∧ ∃ m, o.newFlow = .error m ∧
        sshCertificateAction ctx o = (.error (.flow m), [])) ∨
    (o.parseTime = .ok () ∧ validate ctx = none ∧ ctx.token = "" ∧
        (∃ m, o.genToken = .error m ∧ sshCertificateAction ctx o =
          (.error (.token m), [.genToken ctx.provisionerPasswordFile]))) ∨
    (o.parseTime = .ok () ∧ validate ctx = none ∧ ctx.token = "" ∧ (∃ t, o.genToken = .ok t) ∧
        sshCertificateAction ctx o = restAfterToken ctx o [.genToken ctx.provisionerPasswordFile]) ∨
    (o.parseTime = .ok () ∧ validate ctx = none ∧ ctx.token ≠ "" ∧
        sshCertificateAction ctx o = restAfterToken ctx o []) := by
  cases hpt : o.parseTime with
  | error m => exact Or.inl ⟨m, rfl, by simp [sshCertificateAction, hpt]⟩
  | ok u =>
    cases u
    cases hv : validate ctx with
    | some e =>
      exact Or.inr (Or.inl ⟨rfl, e, rfl, by simp [sshCertificateAction, hpt, hv]⟩)
    | none =>
      cases hnf : o.newFlow with
      | error m =>
        exact Or.inr (Or.inr (Or.inl ⟨rfl, rfl, m, rfl, by simp [sshCertificateAction, hpt, hv, hnf]⟩))
      | ok v =>
        by_cases htk : ctx.token = ""
        · cases hgt : o.genToken with
          | error m =>
            refine Or.inr (Or.inr (Or.inr (Or.inl ⟨rfl, rfl, htk, m, rfl, ?_⟩)))
            simp [sshCertificateAction, hpt, hv, hnf, htk, hgt]
          | ok t =>
            refine Or.inr (Or.inr (Or.inr (Or.inr (Or.inl ⟨rfl, rfl, htk, ⟨t, rfl⟩, ?_⟩))))
            simp [sshCertificateAction, hpt, hv, hnf, htk, hgt]
        · refine Or.inr (Or.inr (Or.inr (Or.inr (Or.inr ⟨rfl, rfl, htk, ?_⟩))))
          simp [sshCertificateAction, hpt, hv, hnf, htk]

theorem restAfterToken_no_validation (ctx : Ctx) (o : Oracles) (tt : List Effect) (e : VErr) :
    (restAfterToken ctx o tt).1 ≠ Except.error (Err.validation e) := by
  rcases restAfterToken_cases ctx o tt with
      ⟨m, _, heq⟩ | ⟨er, kt, hks, heq⟩ | ⟨k, kt, er, hks, hax, heq⟩ |
      ⟨k, kt, a, m, hks, hax, hss, heq⟩ | ⟨k, kt, a, resp, hks, hax, hss, heq⟩
  · simp [heq]
  · have hsh := keyStage_error_shape ctx o er (by rw [hks])
    rcases hsh with ⟨m, rfl⟩ | ⟨m, rfl⟩ | ⟨m, rfl⟩ <;> simp [heq]
  · obtain ⟨m, rfl⟩ := auxStage_error_shape ctx o er hax
    simp [heq]
  · simp [heq]
  · rcases writeAndRegister_result ctx o k a resp with h | ⟨p, hp⟩
    · simp [heq, h]
    · simp [heq, hp]

theorem keyStage_no_mem (ctx : Ctx) (o : Oracles) (kt : List Effect) (e : Effect)
    (hkt : (keyStage ctx o).2 = kt) (hne : ∀ p, e ≠ Effect.fsRead p) : e ∉ kt := by
  intro hmem
  have := keyStage_trace ctx o e (by rw [hkt]; exact hmem)
  exact hne ctx.keyFile this

theorem restAfterToken_signRequest_mem (ctx : Ctx) (o : Oracles) (tt : List Effect)
    (ps : List String) (ct : CertType) (b : Bool)
    (htt : Effect.signRequest ps ct b ∉ tt)
    (h : Effect.signRequest ps ct b ∈ (restAfterToken ctx o tt).2) :
    ps = resolvePrincipals ctx ∧ ct = certTypeOf ctx ∧ b = ctx.isAddUser := by
  have hsign : Effect.signRequest ps ct b = signEffectOf ctx →
      ps = resolvePrincipals ctx ∧ ct = certTypeOf ctx ∧ b = ctx.isAddUser := by
    intro he
    unfold signEffectOf at he
    obtain ⟨h1, h2, h3⟩ := Effect.signRequest.inj he
    exact ⟨h1, h2, h3⟩
  rcases restAfterToken_cases ctx o tt with
      ⟨m, _, heq⟩ | ⟨er, kt, hks, heq⟩ | ⟨k, kt, er, hks, hax, heq⟩ |
      ⟨k, kt, a, m, hks, hax, hss, heq⟩ | ⟨k, kt, a, resp, hks, hax, hss, heq⟩ <;>
    rw [heq] at h
  · exact absurd h htt
  · rcases List.mem_append.mp h with h | h
    · exact absurd h htt
    · exact absurd (keyStage_trace ctx o _ (by rw [hks]; exact h)) (by intro hc; cases hc)
  · rcases List.mem_append.mp h with h | h
    · exact absurd h htt
    · exact absurd (keyStage_trace ctx o _ (by rw [hks]; exact h)) (by intro hc; cases hc)
  · rcases List.mem_append.mp h with h | h
    · rcases List.mem_append.mp h with h | h
      · exact absurd h htt
      · exact absurd (keyStage_trace ctx o _ (by rw [hks]; exact h)) (by intro hc; cases hc)
    · exact hsign (List.mem_singleton.mp h)
  · rcases List.mem_append.mp h with h | h
    · rcases List.mem_append.mp h with h | h
      · rcases List.mem_append.mp h with h | h
        · exact absurd h htt
        · exact absurd (keyStage_trace ctx o _ (by rw [hks]; exact h)) (by intro hc; cases hc)
      · exact hsign (List.mem_singleton.mp h)
    · rcases writeAndRegister_trace_shape ctx o k a resp _ h with ⟨w, _, he⟩ | he | he
      · rcases effectOf_shape w with ⟨p2, m2, pw2, hw⟩ | ⟨p2, m2, c2, hw⟩ <;>
          rw [hw] at he <;> cases he
      · cases he
      · cases he

theorem restAfterToken_serialize_mem (ctx : Ctx) (o : Oracles) (tt : List Effect)
    (p : String) (m : Nat) (pw : PwOpt)
    (htt : Effect.serialize p m pw ∉ tt)
    (h : Effect.serialize p m pw ∈ (restAfterToken ctx o tt).2) :
    m = 0o600 ∧
      ((ctx.isSign = false ∧ p = ctx.keyFile ∧ pw = pwOptOf ctx) ∨
        (ctx.isAddUser = true ∧ p = baseNameOf ctx ++ "-provisioner" ∧ pw = PwOpt.noEnc)) := by
  rcases restAfterToken_cases ctx o tt with
      ⟨m2, _, heq⟩ | ⟨er, kt, hks, heq⟩ | ⟨k, kt, er, hks, hax, heq⟩ |
      ⟨k, kt, a, m2, hks, hax, hss, heq⟩ | ⟨k, kt, a, resp, hks, hax, hss, heq⟩ <;>
    rw [heq] at h
  · exact absurd h htt
  · rcases List.mem_append.mp h with h | h
    · exact absurd h htt
    · exact absurd (keyStage_trace ctx o _ (by rw [hks]; exact h)) (by intro hc; cases hc)
  · rcases List.mem_append.mp h with h | h
    · exact absurd h htt
    · exact absurd (keyStage_trace ctx o _ (by rw [hks]; exact h)) (by intro hc; cases hc)
  · rcases List.mem_append.mp h with h | h
    · rcases List.mem_append.mp h with h | h
      · exact absurd h htt
      · exact absurd (keyStage_trace ctx o _ (by rw [hks]; exact h)) (by intro hc; cases hc)
    · cases List.mem_singleton.mp h
  · rcases List.mem_append.mp h with h | h
    · rcases List.mem_append.mp h with h | h
      · rcases List.mem_append.mp h with h | h
        · exact absurd h htt
        · exact absurd (keyStage_trace ctx o _ (by rw [hks]; exact h)) (by intro hc; cases hc)
      · cases List.mem_singleton.mp h
    · rcases writeAndRegister_trace_shape ctx o k a resp _ h with ⟨w, hwmem, he⟩ | he | he
      · cases w with
        | serialize p2 m2 pw2 =>
          obtain ⟨h1, h2, h3⟩ := Effect.serialize.inj he
          subst h1; subst h2; subst h3
          exact writePlan_serialize_cases ctx k resp.certificate a resp.addUserCertificate
            p m pw hwmem
        | fileWrite p2 m2 c2 => cases he
      · cases he
      · cases he

theorem restAfterToken_genToken_mem (ctx : Ctx) (o : Oracles) (tt : List Effect) (s : String)
    (h : Effect.genToken s ∈ (restAfterToken ctx o tt).2) : Effect.genToken s ∈ tt := by
  rcases restAfterToken_cases ctx o tt with
      ⟨m, _, heq⟩ | ⟨er, kt, hks, heq⟩ | ⟨k, kt, er, hks, hax, heq⟩ |
      ⟨k, kt, a, m, hks, hax, hss, heq⟩ | ⟨k, kt, a, resp, hks, hax, hss, heq⟩ <;>
    rw [heq] at h
  · exact h
  · rcases List.mem_append.mp h with h | h
    · exact h
    · exact absurd (keyStage_trace ctx o _ (by rw [hks]; exact h)) (by intro hc; cases hc)
  · rcases List.mem_append.mp h with h | h
    · exact h
    · exact absurd (keyStage_trace ctx o _ (by rw [hks]; exact h)) (by intro hc; cases hc)
  · rcases List.mem_append.mp h with h | h
    · rcases List.mem_append.mp h with h | h
      · exact h
      · exact absurd (keyStage_trace ctx o _ (by rw [hks]; exact h)) (by intro hc; cases hc)
    · cases List.mem_singleton.mp h
  · rcases List.mem_append.mp h with h | h
    · rcases List.mem_append.mp h with h | h
      · rcases List.mem_append.mp h with h | h
        · exact h
        · exact absurd (keyStage_trace ctx o _ (by rw [hks]; exact h)) (by intro hc; cases hc)
      · cases List.mem_singleton.mp h
    · rcases writeAndRegister_trace_shape ctx o k a resp _ h with ⟨w, _, he⟩ | he | he
      · rcases effectOf_shape w with ⟨p2, m2, pw2, hw⟩ | ⟨p2, m2, c2, hw⟩ <;>
          rw [hw] at he <;> cases he
      · cases he
      · cases he

theorem restAfterToken_agent_iff (ctx : Ctx) (o : Oracles) (tt : List Effect)
    (htt : Effect.agentDial ∉ tt) :
    (Effect.agentDial ∈ (restAfterToken ctx o tt).2 ↔ (restAfterToken ctx o tt).1 = .ok ()) := by
  have hkt : ∀ kt, (keyStage ctx o).2 = kt → Effect.agentDial ∉ kt := by
    intro kt hkte hmem
    have := keyStage_trace ctx o _ (by rw [hkte]; exact hmem)
    cases this
  rcases restAfterToken_cases ctx o tt with
      ⟨m, _, heq⟩ | ⟨er, kt, hks, heq⟩ | ⟨k, kt, er, hks, hax, heq⟩ |
      ⟨k, kt, a, m, hks, hax, hss, heq⟩ | ⟨k, kt, a, resp, hks, hax, hss, heq⟩ <;>
    rw [heq]
  · simp only [List.mem_append]
    constructor
    · intro h
      exact absurd h htt
    · intro h
      cases h
  · constructor
    · intro h
      rcases List.mem_append.mp h with h | h
      · exact absurd h htt
      · exact absurd h (hkt kt (by rw [hks]))
    · intro h
      cases h
  · constructor
    · intro h
      rcases List.mem_append.mp h with h | h
      · exact absurd h htt
      · exact absurd h (hkt kt (by rw [hks]))
    · intro h
      cases h
  · constructor
    · intro h
      rcases List.mem_append.mp h with h | h
      · rcases List.mem_append.mp h with h | h
        · exact absurd h htt
        · exact absurd h (hkt kt (by rw [hks]))
      · cases List.mem_singleton.mp h
    · intro h
      cases h
  · rw [show ((writeAndRegister ctx o k a resp).1,
        tt ++ kt ++ [signEffectOf ctx] ++ (writeAndRegister ctx o k a resp).2).2
      = tt ++ kt ++ [signEffectOf ctx] ++ (writeAndRegister ctx o k a resp).2 from rfl]
    simp only [List.mem_append]
    constructor
    · intro h
      rcases h with (h | h) | h
      · rcases h with h | h
        · exact absurd h htt
        · exact absurd h (hkt kt (by rw [hks]))
      · cases List.mem_singleton.mp h
      · exact (writeAndRegister_agent_iff ctx o k a resp).mp h
    · intro h
      exact Or.inr ((writeAndRegister_agent_iff ctx o k a resp).mpr h)

theorem writeAndRegister_write_abort (ctx : Ctx) (o : Oracles) (k a : SSHKey)
    (r : SignResponse) :
    (∀ p, (writeAndRegister ctx o k a r).1 = .error (.write p) →
      o.writeOk p = false ∧
        ∃ pre, writeAttempts (writeAndRegister ctx o k a r).2 = pre ++ [p] ∧
          ∀ q ∈ pre, o.writeOk q = true) ∧
    (∀ q ∈ writeAttempts (writeAndRegister ctx o k a r).2, o.writeOk q = false →
      (writeAndRegister ctx o k a r).1 = .error (.write q)) := by
  unfold writeAndRegister
  rcases runWrites_spec o.writeOk (writePlan ctx k r.certificate a r.addUserCertificate) with
      ⟨hall, heq⟩ | ⟨pre, w, post, hsplit, hpre, hw, heq⟩
  · rw [heq]
    cases hag : o.agentResult with
    | error m =>
      constructor
      · intro p hp
        cases hp
      · intro q hq hfalse
        rw [writeAttempts_append, writeAttempts_map_effectOf] at hq
        simp only [writeAttempts, List.append_nil] at hq
        rcases List.mem_map.mp (by simpa using hq) with ⟨u, hu, hupath⟩
        rw [← hupath] at hfalse
        rw [hall u hu] at hfalse
        cases hfalse
    | ok v =>
      constructor
      · intro p hp
        cases hp
      · intro q hq hfalse
        rw [writeAttempts_append, writeAttempts_map_effectOf] at hq
        simp only [writeAttempts, List.append_nil] at hq
        rcases List.mem_map.mp (by simpa using hq) with ⟨u, hu, hupath⟩
        rw [← hupath] at hfalse
        rw [hall u hu] at hfalse
        cases hfalse
  · rw [heq]
    constructor
    · intro p hp
      simp only at hp
      obtain hpw := (Err.write.inj (Except.error.inj hp)).symm
      subst hpw
      refine ⟨hw, pre.map WriteStep.path, ?_, ?_⟩
      · rw [show (pre ++ [w]).map WriteStep.effectOf
            = pre.map WriteStep.effectOf ++ [w.effectOf] by simp]
        rw [writeAttempts_append, writeAttempts_map_effectOf]
        cases w <;> simp [writeAttempts, WriteStep.path]
      · intro q hq
        rcases List.mem_map.mp hq with ⟨u, hu, hupath⟩
        rw [← hupath]
        exact hpre u hu
    · intro q hq hfalse
      rw [show (pre ++ [w]).map WriteStep.effectOf
          = pre.map WriteStep.effectOf ++ [w.effectOf] by simp] at hq
      rw [writeAttempts_append, writeAttempts_map_effectOf] at hq
      rcases List.mem_append.mp hq with hq | hq
      · rcases List.mem_map.mp hq with ⟨u, hu, hupath⟩
        rw [← hupath] at hfalse
        rw [hpre u hu] at hfalse
        cases hfalse
      · have hqw : q = w.path := by
          cases w <;> simpa [writeAttempts, WriteStep.path] using hq
        rw [hqw]

theorem restAfterToken_write_abort (ctx : Ctx) (o : Oracles) (tt : List Effect)
    (htt : writeAttempts tt = []) :
    (∀ p, (restAfterToken ctx o tt).1 = .error (.write p) →
      o.writeOk p = false ∧
        ∃ pre, writeAttempts (restAfterToken ctx o tt).2 = pre ++ [p] ∧
          ∀ q ∈ pre, o.writeOk q = true) ∧
    (∀ q ∈ writeAttempts (restAfterToken ctx o tt).2, o.writeOk q = false →
      (restAfterToken ctx o tt).1 = .error (.write q)) := by
  have hktnil : ∀ kt, (keyStage ctx o).2 = kt → writeAttempts kt = [] := by
    intro kt hkte
    refine writeAttempts_nil_of_fsRead kt ctx.keyFile ?_
    intro e he
    exact keyStage_trace ctx o e (by rw [hkte]; exact he)
  have hsignnil : writeAttempts [signEffectOf ctx] = [] := by
    simp [signEffectOf, writeAttempts]
  rcases restAfterToken_cases ctx o tt with
      ⟨m, _, heq⟩ | ⟨er, kt, hks, heq⟩ | ⟨k, kt, er, hks, hax, heq⟩ |
      ⟨k, kt, a, m, hks, hax, hss, heq⟩ | ⟨k, kt, a, resp, hks, hax, hss, heq⟩ <;>
    rw [heq]
  · constructor
    · intro p hp
      cases hp
    · intro q hq hfalse
      rw [htt] at hq
      cases hq
  · have hsh := keyStage_error_shape ctx o er (by rw [hks])
    constructor
    · intro p hp
      simp only at hp
      rcases hsh with ⟨m, rfl⟩ | ⟨m, rfl⟩ | ⟨m, rfl⟩ <;> cases hp
    · intro q hq hfalse
      rw [writeAttempts_append, htt, hktnil kt (by rw [hks])] at hq
      cases hq
  · obtain ⟨m, rfl⟩ := auxStage_error_shape ctx o er hax
    constructor
    · intro p hp
      cases hp
    · intro q hq hfalse
      rw [writeAttempts_append, htt, hktnil kt (by rw [hks])] at hq
      cases hq
  · constructor
    · intro p hp
      cases hp
    · intro q hq hfalse
      rw [writeAttempts_append, writeAttempts_append, htt,
        hktnil kt (by rw [hks]), hsignnil] at hq
      cases hq
  · have hpre0 : writeAttempts (tt ++ kt ++ [signEffectOf ctx]) = [] := by
      rw [writeAttempts_append, writeAttempts_append, htt,
        hktnil kt (by rw [hks]), hsignnil]
      rfl
    have hmain := writeAndRegister_write_abort ctx o k a resp
    constructor
    · intro p hp
      obtain ⟨h1, preW, h2, h3⟩ := hmain.1 p hp
      refine ⟨h1, preW, ?_, h3⟩
      rw [show (((writeAndRegister ctx o k a resp).1,
          tt ++ kt ++ [signEffectOf ctx] ++ (writeAndRegister ctx o k a resp).2)).2
        = tt ++ kt ++ [signEffectOf ctx] ++ (writeAndRegister ctx o k a resp).2 from rfl]
      rw [writeAttempts_append, hpre0, List.nil_append]
      exact h2
    · intro q hq hfalse
      rw [show (((writeAndRegister ctx o k a resp).1,
          tt ++ kt ++ [signEffectOf ctx] ++ (writeAndRegister ctx o k a resp).2)).2
        = tt ++ kt ++ [signEffectOf ctx] ++ (writeAndRegister ctx o k a resp).2 from rfl,
        writeAttempts_append, hpre0, List.nil_append] at hq
      exact hmain.2 q hq hfalse

theorem action_signRequest_mem (ctx : Ctx) (o : Oracles) (ps : List String) (ct : CertType)
    (b : Bool) (h : Effect.signRequest ps ct b ∈ (sshCertificateAction ctx o).2) :
    ps = resolvePrincipals ctx ∧ ct = certTypeOf ctx ∧ b = ctx.isAddUser := by
  rcases sshCertificateAction_cases ctx o with
      ⟨m, _, heq⟩ | ⟨_, e, hv, heq⟩ | ⟨_, hv, m, hnf, heq⟩ | ⟨_, hv, htk, m, hgt, heq⟩ |
      ⟨_, hv, htk, _, heq⟩ | ⟨_, hv, htk, heq⟩ <;> rw [heq] at h
  · simp at h
  · simp at h
  · simp at h
  · simp at h
  · exact restAfterToken_signRequest_mem ctx o _ ps ct b
      (by intro hc; cases List.mem_singleton.mp hc) h
  · exact restAfterToken_signRequest_mem ctx o _ ps ct b (by intro hc; cases hc) h

theorem action_serialize_mem (ctx : Ctx) (o : Oracles) (p : String) (m : Nat) (pw : PwOpt)
    (h : Effect.serialize p m pw ∈ (sshCertificateAction ctx o).2) :
    m = 0o600 ∧
      ((ctx.isSign = false ∧ p = ctx.keyFile ∧ pw = pwOptOf ctx) ∨
        (ctx.isAddUser = true ∧ p = baseNameOf ctx ++ "-provisioner" ∧ pw = PwOpt.noEnc)) := by
  rcases sshCertificateAction_cases ctx o with
      ⟨m2, _, heq⟩ | ⟨_, e, hv, heq⟩ | ⟨_, hv, m2, hnf, heq⟩ | ⟨_, hv, htk, m2, hgt, heq⟩ |
      ⟨_, hv, htk, _, heq⟩ | ⟨_, hv, htk, heq⟩ <;> rw [heq] at h
  · simp at h
  · simp at h
  · simp at h
  · simp at h
  · exact restAfterToken_serialize_mem ctx o _ p m pw
      (by intro hc; cases List.mem_singleton.mp hc) h
  · exact restAfterToken_serialize_mem ctx o _ p m pw (by intro hc; cases hc) h

theorem action_genToken_mem (ctx : Ctx) (o : Oracles) (s : String)
    (h : Effect.genToken s ∈ (sshCertificateAction ctx o).2) :
    s = ctx.provisionerPasswordFile := by
  rcases sshCertificateAction_cases ctx o with
      ⟨m, _, heq⟩ | ⟨_, e, hv, heq⟩ | ⟨_, hv, m, hnf, heq⟩ | ⟨_, hv, htk, m, hgt, heq⟩ |
      ⟨_, hv, htk, _, heq⟩ | ⟨_, hv, htk, heq⟩ <;> rw [heq] at h
  · simp at h
  · simp at h
  · simp at h
  · have := List.mem_singleton.mp h
    exact Effect.genToken.inj this
  · have := restAfterToken_genToken_mem ctx o _ s h
    exact Effect.genToken.inj (List.mem_singleton.mp this)
  · have := restAfterToken_genToken_mem ctx o _ s h
    cases this

theorem action_agent_iff (ctx : Ctx) (o : Oracles) :
    Effect.agentDial ∈ (sshCertificateAction ctx o).2 ↔
      (sshCertificateAction ctx o).1 = .ok () := by
  rcases sshCertificateAction_cases ctx o with
      ⟨m, _, heq⟩ | ⟨_, e, hv, heq⟩ | ⟨_, hv, m, hnf, heq⟩ | ⟨_, hv, htk, m, hgt, heq⟩ |
      ⟨_, hv, htk, _, heq⟩ | ⟨_, hv, htk, heq⟩ <;> rw [heq]
  · simp
  · simp
  · simp
  · simp
  · exact restAfterToken_agent_iff ctx o _ (by intro hc; cases List.mem_singleton.mp hc)
  · exact restAfterToken_agent_iff ctx o _ (by intro hc; cases hc)

theorem action_no_validation_of_validate_none (ctx : Ctx) (o : Oracles)
    (hpt : o.parseTime = .ok ()) (hv : validate ctx = none) (e : VErr) :
    (sshCertificateAction ctx o).1 ≠ Except.error (Err.validation e) := by
  rcases sshCertificateAction_cases ctx o with
      ⟨m, hpt2, heq⟩ | ⟨_, e2, hv2, heq⟩ | ⟨_, hv2, m, hnf, heq⟩ | ⟨_, hv2, htk, m, hgt, heq⟩ |
      ⟨_, hv2, htk, _, heq⟩ | ⟨_, hv2, htk, heq⟩ <;> rw [heq]
  · rw [hpt] at hpt2
    cases hpt2
  · rw [hv] at hv2
    cases hv2
  · simp
  · simp
  · exact restAfterToken_no_validation ctx o _ e
  · exact restAfterToken_no_validation ctx o _ e

theorem action_write_abort (ctx : Ctx) (o : Oracles) :
    (∀ p, (sshCertificateAction ctx o).1 = .error (.write p) →
      o.writeOk p = false ∧
        ∃ pre, writeAttempts (sshCertificateAction ctx o).2 = pre ++ [p] ∧
          ∀ q ∈ pre, o.writeOk q = true) ∧
    (∀ q ∈ writeAttempts (sshCertificateAction ctx o).2, o.writeOk q = false →
      (sshCertificateAction ctx o).1 = .error (.write q)) := by
  rcases sshCertificateAction_cases ctx o with
      ⟨m, _, heq⟩ | ⟨_, e, hv, heq⟩ | ⟨_, hv, m, hnf, heq⟩ | ⟨_, hv, htk, m, hgt, heq⟩ |
      ⟨_, hv, htk, _, heq⟩ | ⟨_, hv, htk, heq⟩ <;> rw [heq]
  · exact ⟨fun p hp => (by cases hp), fun q hq hf => (by cases hq)⟩
  · exact ⟨fun p hp => (by cases hp), fun q hq hf => (by cases hq)⟩
  · exact ⟨fun p hp => (by cases hp), fun q hq hf => (by cases hq)⟩
  · exact ⟨fun p hp => (by cases hp), fun q hq hf => (by cases hq)⟩
  · exact restAfterToken_write_abort ctx o _ rfl
  · exact restAfterToken_write_abort ctx o _ rfl

/-- The same oracles with only the agent registration outcome replaced. -/
def withAgent (o : Oracles) (ag : Except String Unit) : Oracles :=
  { parseTime := o.parseTime, newFlow := o.newFlow, genToken := o.genToken
  , getClient := o.getClient, readFile := o.readFile, parseKey := o.parseKey
  , genKeyPair := o.genKeyPair, genAuxKeyPair := o.genAuxKeyPair, signSSH := o.signSSH
  , writeOk := o.writeOk, agentResult := ag }

theorem withAgent_getClient (o : Oracles) (ag : Except String Unit) :
    (withAgent o ag).getClient = o.getClient := rfl

theorem withAgent_signSSH (o : Oracles) (ag : Except String Unit) :
    (withAgent o ag).signSSH = o.signSSH := rfl

theorem withAgent_parseTime (o : Oracles) (ag : Except String Unit) :
    (withAgent o ag).parseTime = o.parseTime := rfl

theorem withAgent_newFlow (o : Oracles) (ag : Except String Unit) :
    (withAgent o ag).newFlow = o.newFlow := rfl

theorem withAgent_genToken (o : Oracles) (ag : Except String Unit) :
    (withAgent o ag).genToken = o.genToken := rfl

theorem withAgent_writeOk (o : Oracles) (ag : Except String Unit) :
    (withAgent o ag).writeOk = o.writeOk := rfl

theorem withAgent_agentResult (o : Oracles) (ag : Except String Unit) :
    (withAgent o ag).agentResult = ag := rfl

theorem keyStage_withAgent (ctx : Ctx) (o : Oracles) (ag : Except String Unit) :
    keyStage ctx (withAgent o ag) = keyStage ctx o := rfl

theorem auxStage_withAgent (ctx : Ctx) (o : Oracles) (ag : Except String Unit) :
    auxStage ctx (withAgent o ag) = auxStage ctx o := rfl

theorem writeAndRegister_agent_invariant (ctx : Ctx) (o : Oracles) (k a : SSHKey)
    (r : SignResponse) (ag1 ag2 : Except String Unit) :
    (writeAndRegister ctx (withAgent o ag1) k a r).1
      = (writeAndRegister ctx (withAgent o ag2) k a r).1 := by
  unfold writeAndRegister
  rw [withAgent_writeOk, withAgent_writeOk, withAgent_agentResult, withAgent_agentResult]
  rcases runWrites o.writeOk (writePlan ctx k r.certificate a r.addUserCertificate)
    with ⟨res, wt⟩
  cases res with
  | error e => rfl
  | ok u => cases ag1 <;> cases ag2 <;> rfl

theorem restAfterToken_agent_invariant (ctx : Ctx) (o : Oracles) (tt : List Effect)
    (ag1 ag2 : Except String Unit) :
    (restAfterToken ctx (withAgent o ag1) tt).1
      = (restAfterToken ctx (withAgent o ag2) tt).1 := by
  unfold restAfterToken
  rw [withAgent_getClient, withAgent_getClient, keyStage_withAgent, keyStage_withAgent,
    auxStage_withAgent, auxStage_withAgent, withAgent_signSSH, withAgent_signSSH]
  cases o.getClient with
  | error m => rfl
  | ok u =>
    rcases keyStage ctx o with ⟨kres, kt⟩
    cases kres with
    | error er => rfl
    | ok sshPub =>
      cases auxStage ctx o with
      | error er => rfl
      | ok auPub =>
        cases o.signSSH with
        | error m => rfl
        | ok resp =>
          exact writeAndRegister_agent_invariant ctx o sshPub auPub resp ag1 ag2

theorem action_agent_invariant (ctx : Ctx) (o : Oracles) (ag1 ag2 : Except String Unit) :
    (sshCertificateAction ctx (withAgent o ag1)).1
      = (sshCertificateAction ctx (withAgent o ag2)).1 := by
  unfold sshCertificateAction
  rw [withAgent_parseTime, withAgent_parseTime, withAgent_newFlow, withAgent_newFlow,
    withAgent_genToken, withAgent_genToken]
  cases o.parseTime with
  | error m => rfl
  | ok u =>
    cases validate ctx with
    | some e => rfl
    | none =>
      cases o.newFlow with
      | error m => rfl
      | ok v =>
        by_cases htk : ctx.token = ""
        · simp only [htk, if_true]
          cases o.genToken with
          | error m => rfl
          | ok t =>
            exact restAfterToken_agent_invariant ctx o
              [Effect.genToken ctx.provisionerPasswordFile] ag1 ag2
        · simp only [htk, if_false]
          exact restAfterToken_agent_invariant ctx o [] ag1 ag2

theorem writeAndRegister_warn_of_dial (ctx : Ctx) (o : Oracles) (k a : SSHKey)
    (r : SignResponse) (m : String) (hag : o.agentResult = .error m)
    (h : Effect.agentDial ∈ (writeAndRegister ctx o k a r).2) :
    Effect.warnAgent ∈ (writeAndRegister ctx o k a r).2 := by
  unfold writeAndRegister at h ⊢
  rcases hrw : runWrites o.writeOk (writePlan ctx k r.certificate a r.addUserCertificate)
    with ⟨res, wt⟩
  cases res with
  | error e =>
    rw [hrw] at h
    dsimp only at h
    have hnd := runWrites_no_agentDial o.writeOk
      (writePlan ctx k r.certificate a r.addUserCertificate)
    rw [hrw] at hnd
    exact absurd h hnd
  | ok u =>
    rw [hag] at h ⊢
    simp

theorem restAfterToken_warn_of_dial (ctx : Ctx) (o : Oracles) (tt : List Effect) (m : String)
    (hag : o.agentResult = .error m) (htt : Effect.agentDial ∉ tt)
    (h : Effect.agentDial ∈ (restAfterToken ctx o tt).2) :
    Effect.warnAgent ∈ (restAfterToken ctx o tt).2 := by
  have hkt : ∀ kt, (keyStage ctx o).2 = kt → Effect.agentDial ∉ kt := by
    intro kt hkte hmem
    have := keyStage_trace ctx o _ (by rw [hkte]; exact hmem)
    cases this
  rcases restAfterToken_cases ctx o tt with
      ⟨m2, _, heq⟩ | ⟨er, kt, hks, heq⟩ | ⟨k, kt, er, hks, hax, heq⟩ |
      ⟨k, kt, a, m2, hks, hax, hss, heq⟩ | ⟨k, kt, a, resp, hks, hax, hss, heq⟩ <;>
    rw [heq] at h ⊢
  · exact absurd h htt
  · rcases List.mem_append.mp h with h | h
    · exact absurd h htt
    · exact absurd h (hkt kt (by rw [hks]))
  · rcases List.mem_append.mp h with h | h
    · exact absurd h htt
    · exact absurd h (hkt kt (by rw [hks]))
  · rcases List.mem_append.mp h with h | h
    · rcases List.mem_append.mp h with h | h
      · exact absurd h htt
      · exact absurd h (hkt kt (by rw [hks]))
    · cases List.mem_singleton.mp h
  · rcases List.mem_append.mp h with h | h
    · rcases List.mem_append.mp h with h | h
      · rcases List.mem_append.mp h with h | h
        · exact absurd h htt
        · exact absurd h (hkt kt (by rw [hks]))
      · cases List.mem_singleton.mp h
    · exact List.mem_append.mpr
        (Or.inr (writeAndRegister_warn_of_dial ctx o k a resp m hag h))

theorem action_warn_of_dial (ctx : Ctx) (o : Oracles) (m : String)
    (hag : o.agentResult = .error m)
    (h : Effect.agentDial ∈ (sshCertificateAction ctx o).2) :
    Effect.warnAgent ∈ (sshCertificateAction ctx o).2 := by
  rcases sshCertificateAction_cases ctx o with
      ⟨m2, _, heq⟩ | ⟨_, e, hv, heq⟩ | ⟨_, hv, m2, hnf, heq⟩ | ⟨_, hv, htk, m2, hgt, heq⟩ |
      ⟨_, hv, htk, _, heq⟩ | ⟨_, hv, htk, heq⟩ <;> rw [heq] at h ⊢
  · simp at h
  · simp at h
  · simp at h
  · simp at h
  · exact restAfterToken_warn_of_dial ctx o _ m hag
      (by intro hc; cases List.mem_singleton.mp hc) h
  · exact restAfterToken_warn_of_dial ctx o _ m hag (by intro hc; cases hc) h

theorem string_data_append (s t : String) : (s ++ t).data = s.data ++ t.data := by
  cases s
  cases t
  rfl

theorem keyFile_ne_provisioner (ctx : Ctx) :
    ctx.keyFile ≠ baseNameOf ctx ++ "-provisioner" := by
  intro heq
  have hd : ctx.keyFile.data = (baseNameOf ctx ++ "-provisioner").data :=
    congrArg String.data heq
  rw [string_data_append] at hd
  have hlen := congrArg List.length hd
  rw [List.length_append] at hlen
  have h12 : "-provisioner".data.length = 12 := rfl
  rw [h12] at hlen
  unfold baseNameOf at hlen
  by_cases hs : ctx.isSign = true ∧ goHasSuffix ctx.keyFile ".pub" = true
  · rw [if_pos hs] at hlen
    unfold stripDotPub at hlen
    simp only [List.length_take] at hlen
    omega
  · rw [if_neg hs] at hlen
    omega

/-! ### Concrete fixtures for witnesses and counterexamples -/

/-- A fully succeeding set of collaborators for concrete runs. -/
def oHappy : Oracles :=
  { parseTime := .ok (), newFlow := .ok (), genToken := .ok "tok", getClient := .ok ()
  , readFile := .ok (), parseKey := .ok ⟨"ssh-ed25519".data, "AAAA".data⟩
  , genKeyPair := .ok ⟨"ssh-ed25519".data, "BBBB".data⟩
  , genAuxKeyPair := .ok ⟨"ssh-ed25519".data, "CCCC".data⟩
  , signSSH := .ok ⟨⟨"cert-v01".data, "DDDD".data⟩, ⟨"cert-v01".data, "EEEE".data⟩⟩
  , writeOk := fun _ => true, agentResult := .ok () }

/-- A stand-in key used where the concrete key value is irrelevant. -/
def kDemo : SSHKey := ⟨"ssh-ed25519".data, "AAAA".data⟩

/-! ### Claim theorems -/

/-- C1: with the time flags parsing fine, the action checks exactly the
five flag-combination conflicts of the spec in the fixed precedence order,
returns the first violation as a validation error with an empty effect
trace (no network or filesystem access), and never produces a validation
error when no conflict exists. -/
theorem validation_gate (ctx : Ctx) (o : Oracles) (hpt : o.parseTime = .ok ()) :
    (∀ e, validate ctx = some e →
        sshCertificateAction ctx o = (.error (.validation e), [])) ∧
    (validate ctx = none →
        ∀ e, (sshCertificateAction ctx o).1 ≠ .error (.validation e)) ∧
    (validate ctx = some .requiredInsecure ↔
        (ctx.noPassword = true ∧ ctx.insecure = false)) ∧
    (validate ctx = some .noPasswordWithPasswordFile ↔
        (¬(ctx.noPassword = true ∧ ctx.insecure = false) ∧
          ctx.noPassword = true ∧ ctx.passwordFile ≠ "")) ∧
    (validate ctx = some .tokenWithProvisionerPasswordFile ↔
        (¬(ctx.noPassword = true ∧ ctx.insecure = false) ∧
          ¬(ctx.noPassword = true ∧ ctx.passwordFile ≠ "") ∧
          ctx.token ≠ "" ∧ ctx.provisionerPasswordFile ≠ "")) ∧
    (validate ctx = some .hostWithAddUser ↔
        (¬(ctx.noPassword = true ∧ ctx.insecure = false) ∧
          ¬(ctx.noPassword = true ∧ ctx.passwordFile ≠ "") ∧
          ¬(ctx.token ≠ "" ∧ ctx.provisionerPasswordFile ≠ "") ∧
          ctx.isHost = true ∧ ctx.isAddUser = true)) ∧
    (validate ctx = some .addUserMultiplePrincipals ↔
        (¬(ctx.noPassword = true ∧ ctx.insecure = false) ∧
          ¬(ctx.noPassword = true ∧ ctx.passwordFile ≠ "") ∧
          ¬(ctx.token ≠ "" ∧ ctx.provisionerPasswordFile ≠ "") ∧
          ¬(ctx.isHost = true ∧ ctx.isAddUser = true) ∧
          ctx.isAddUser = true ∧ 1 < ctx.principals.length)) ∧
    (validate ctx = none ↔
        (¬(ctx.noPassword = true ∧ ctx.insecure = false) ∧
          ¬(ctx.noPassword = true ∧ ctx.passwordFile ≠ "") ∧
          ¬(ctx.token ≠ "" ∧ ctx.provisionerPasswordFile ≠ "") ∧
          ¬(ctx.isHost = true ∧ ctx.isAddUser = true) ∧
          ¬(ctx.isAddUser = true ∧ 1 < ctx.principals.length))) := by
  refine ⟨?_, ?_, ?_, ?_, ?_, ?_, ?_, ?_⟩
  · intro e he
    simp [sshCertificateAction, hpt, he]
  · intro hv e
    exact action_no_validation_of_validate_none ctx o hpt hv e
  all_goals (unfold validate; split_ifs <;> simp_all)

def ctxC1 : Ctx :=
  { subject := "mariano@work", keyFile := "id_ecdsa", token := "", isHost := false
  , isSign := false, isAddUser := false, principals := [], passwordFile := ""
  , provisionerPasswordFile := "", noPassword := true, insecure := false }

/-- C1 witness: a no-password run without the insecure flag is rejected
with the first validation error and an empty effect trace. -/
theorem validation_gate_witness :
    sshCertificateAction ctxC1 oHappy = (.error (.validation .requiredInsecure), []) :=
  (validation_gate ctxC1 oHappy rfl).1 VErr.requiredInsecure (by decide)

/-- C2: the principals of the signing request are the supplied list
unchanged and in order; an empty list resolves to the subject alone for
host certificates and to the sanitized subject alone (trailing at-domain
suffix stripped) for user certificates. -/
theorem principals_resolution (ctx : Ctx) (o : Oracles) (ps : List String) (ct : CertType)
    (b : Bool) (h : Effect.signRequest ps ct b ∈ (sshCertificateAction ctx o).2) :
    (ctx.principals ≠ [] → ps = ctx.principals) ∧
    (ctx.principals = [] → ctx.isHost = true → ps = [ctx.subject]) ∧
    (ctx.principals = [] → ctx.isHost = false →
      ps = [SanitizeSSHUserPrincipal ctx.subject]) := by
  obtain ⟨hps, _, _⟩ := action_signRequest_mem ctx o ps ct b h
  subst hps
  unfold resolvePrincipals
  refine ⟨?_, ?_, ?_⟩
  · intro hne
    simp [hne]
  · intro he hh
    simp [he, hh]
  · intro he hh
    simp [he, hh]

def ctxC2 : Ctx :=
  { subject := "mariano@work", keyFile := "id_ecdsa", token := "", isHost := false
  , isSign := false, isAddUser := false, principals := [], passwordFile := ""
  , provisionerPasswordFile := "", noPassword := false, insecure := false }

/-- C2 witness: subject mariano at work with no explicit principals in user
mode sends exactly the single principal mariano. -/
theorem principals_resolution_witness :
    ["mariano"] = [SanitizeSSHUserPrincipal ctxC2.subject] :=
  (principals_resolution ctxC2 oHappy ["mariano"] CertType.user false (by decide)).2.2
    (by decide) (by decide)

/-- C3: artifact names derive deterministically from the key file argument:
generate mode writes the private key at the key file path itself, the
public key at the path plus .pub and the certificate at the path plus
-cert.pub (plus the provisioner-suffixed trio in add-user mode); sign mode
writes no main private or public key file, only the certificate (and in
add-user mode the provisioner artifacts), and a .pub suffix on the input is
stripped before -cert.pub is appended. -/
theorem artifact_path_derivation (ctx : Ctx) (k c a ac : SSHKey) :
    (ctx.isSign = false →
      (writePlan ctx k c a ac).map WriteStep.path =
        [ctx.keyFile, ctx.keyFile ++ ".pub", ctx.keyFile ++ "-cert.pub"] ++
          (if ctx.isAddUser = true then
            [ctx.keyFile ++ "-provisioner", ctx.keyFile ++ "-provisioner.pub",
             ctx.keyFile ++ "-provisioner-cert.pub"]
           else [])) ∧
    (ctx.isSign = true →
      (writePlan ctx k c a ac).map WriteStep.path =
        [crtFileOf ctx] ++
          (if ctx.isAddUser = true then
            [baseNameOf ctx ++ "-provisioner", baseNameOf ctx ++ "-provisioner.pub",
             baseNameOf ctx ++ "-provisioner-cert.pub"]
           else [])) ∧
    (ctx.isSign = true → goHasSuffix ctx.keyFile ".pub" = true →
      crtFileOf ctx = stripDotPub ctx.keyFile ++ "-cert.pub") := by
  refine ⟨?_, ?_, ?_⟩
  · intro hs
    by_cases ha : ctx.isAddUser = true <;>
      simp [writePlan, hs, ha, pubFileOf, crtFileOf, baseNameOf, WriteStep.path]
  · intro hs
    by_cases ha : ctx.isAddUser = true <;>
      simp [writePlan, hs, ha, WriteStep.path]
  · intro hs hsuf
    simp [crtFileOf, baseNameOf, hs, hsuf]

def ctxC3g : Ctx :=
  { subject := "mariano@work", keyFile := "id_ecdsa", token := "", isHost := false
  , isSign := false, isAddUser := false, principals := [], passwordFile := ""
  , provisionerPasswordFile := "", noPassword := false, insecure := false }

def ctxC3s : Ctx :=
  { subject := "mariano@work", keyFile := "id_ecdsa.pub", token := "", isHost := false
  , isSign := true, isAddUser := false, principals := [], passwordFile := ""
  , provisionerPasswordFile := "", noPassword := false, insecure := false }

/-- C3 witness: base name id_ecdsa in generate mode yields exactly
id_ecdsa, id_ecdsa.pub, id_ecdsa-cert.pub; signing id_ecdsa.pub writes
only id_ecdsa-cert.pub. -/
theorem artifact_path_derivation_witness :
    (writePlan ctxC3g kDemo kDemo kDemo kDemo).map WriteStep.path =
        ["id_ecdsa", "id_ecdsa.pub", "id_ecdsa-cert.pub"] ∧
    (writePlan ctxC3s kDemo kDemo kDemo kDemo).map WriteStep.path = ["id_ecdsa-cert.pub"] ∧
    crtFileOf ctxC3s = "id_ecdsa-cert.pub" := by
  refine ⟨?_, ?_, ?_⟩
  · have h1 := (artifact_path_derivation ctxC3g kDemo kDemo kDemo kDemo).1 (by decide)
    simpa using h1
  · have h2 := (artifact_path_derivation ctxC3s kDemo kDemo kDemo kDemo).2.1 (by decide)
    simpa using h2
  · have h3 := (artifact_path_derivation ctxC3s kDemo kDemo kDemo kDemo).2.2
      (by decide) (by decide)
    simpa using h3

/-- C4 (amended): every private key serialization uses owner-only mode
0600; the main generated private key is unencrypted exactly when both
no-password and insecure are set, else takes the password file when given,
else an interactive prompt; the auxiliary add-user private key is always
serialized with no password option at all, regardless of the flags. -/
theorem private_key_write_policy (ctx : Ctx) (o : Oracles) (p : String) (m : Nat)
    (pw : PwOpt) (h : Effect.serialize p m pw ∈ (sshCertificateAction ctx o).2) :
    m = 0o600 ∧
      ((ctx.isSign = false ∧ p = ctx.keyFile ∧
          pw = (if ctx.noPassword = true ∧ ctx.insecure = true then PwOpt.noEnc
                else if ctx.passwordFile ≠ "" then PwOpt.file ctx.passwordFile
                else PwOpt.prompt)) ∨
        (ctx.isAddUser = true ∧ p = baseNameOf ctx ++ "-provisioner" ∧
          pw = PwOpt.noEnc)) :=
  action_serialize_mem ctx o p m pw h

def ctxC4 : Ctx :=
  { subject := "mariano@work", keyFile := "id_ecdsa", token := "", isHost := false
  , isSign := false, isAddUser := true, principals := [], passwordFile := "pass.txt"
  , provisionerPasswordFile := "", noPassword := false, insecure := false }

/-- C4 counterexample: with a password file supplied and no-password unset,
encryption should apply to every private key per the claim, yet the
auxiliary add-user private key is serialized with no password option. -/
theorem aux_private_key_unencrypted :
    ctxC4.noPassword = false ∧
      Effect.serialize "id_ecdsa-provisioner" 0o600 PwOpt.noEnc
        ∈ (sshCertificateAction ctxC4 oHappy).2 :=
  ⟨rfl, by decide⟩

def ctxC4w : Ctx :=
  { subject := "alice", keyFile := "idw", token := "", isHost := false
  , isSign := false, isAddUser := false, principals := [], passwordFile := ""
  , provisionerPasswordFile := "", noPassword := false, insecure := false }

/-- C4 witness: a plain generate-mode run serializes the private key at
mode 0600 with an interactive password prompt. -/
theorem private_key_write_policy_witness :
    (0o600 : Nat) = 0o600 ∧
      ((ctxC4w.isSign = false ∧ "idw" = ctxC4w.keyFile ∧
          PwOpt.prompt =
            (if ctxC4w.noPassword = true ∧ ctxC4w.insecure = true then PwOpt.noEnc
             else if ctxC4w.passwordFile ≠ "" then PwOpt.file ctxC4w.passwordFile
             else PwOpt.prompt)) ∨
        (ctxC4w.isAddUser = true ∧ "idw" = baseNameOf ctxC4w ++ "-provisioner" ∧
          PwOpt.prompt = PwOpt.noEnc)) :=
  private_key_write_policy ctxC4w oHappy "idw" 0o600 PwOpt.prompt (by decide)

/-- C5 (amended): the agent registration step is attempted exactly when
everything up to and including the artifact writes succeeded, in every
mode; in particular sign mode, which generates no private key, still dials
the agent. -/
theorem agent_attempt_iff_success (ctx : Ctx) (o : Oracles) :
    Effect.agentDial ∈ (sshCertificateAction ctx o).2 ↔
      (sshCertificateAction ctx o).1 = .ok () :=
  action_agent_iff ctx o

def ctxC5 : Ctx :=
  { subject := "mariano@work", keyFile := "id_ecdsa.pub", token := "tok", isHost := false
  , isSign := true, isAddUser := false, principals := ["mariano"], passwordFile := ""
  , provisionerPasswordFile := "", noPassword := false, insecure := false }

/-- C5 counterexample: a successful sign-mode run, which produces no
private key, still dials the agent. -/
theorem agent_attempted_in_sign_mode :
    ctxC5.isSign = true ∧ Effect.agentDial ∈ (sshCertificateAction ctxC5 oHappy).2 :=
  ⟨rfl, by decide⟩

/-- C6: the overall result never depends on the agent registration
outcome, and when the agent step was reached and failed, the action still
returns success and records only a warning. -/
theorem agent_failure_nonfatal (ctx : Ctx) (o : Oracles) (e : String) :
    ((sshCertificateAction ctx (withAgent o (.error e))).1
        = (sshCertificateAction ctx (withAgent o (.ok ()))).1) ∧
    (Effect.agentDial ∈ (sshCertificateAction ctx (withAgent o (.error e))).2 →
      (sshCertificateAction ctx (withAgent o (.error e))).1 = .ok () ∧
        Effect.warnAgent ∈ (sshCertificateAction ctx (withAgent o (.error e))).2) := by
  refine ⟨action_agent_invariant ctx o (.error e) (.ok ()), ?_⟩
  intro hdial
  exact ⟨(action_agent_iff ctx (withAgent o (.error e))).mp hdial,
    action_warn_of_dial ctx (withAgent o (.error e)) e rfl hdial⟩

def ctxC6 : Ctx :=
  { subject := "mariano@work", keyFile := "id_ecdsa", token := "", isHost := false
  , isSign := false, isAddUser := false, principals := [], passwordFile := ""
  , provisionerPasswordFile := "", noPassword := false, insecure := false }

/-- C6 witness: a run whose agent endpoint is unreachable still returns
success once the certificate was written, and records a warning. -/
theorem agent_failure_nonfatal_witness :
    (sshCertificateAction ctxC6 (withAgent oHappy (.error "agent down"))).1 = .ok () ∧
      Effect.warnAgent ∈ (sshCertificateAction ctxC6 (withAgent oHappy (.error "agent down"))).2 :=
  (agent_failure_nonfatal ctxC6 oHappy "agent down").2 (by decide)

/-- C7 (amended): in add-user mode the auxiliary public key and certificate
are serialized with the trailing comment equal to the sanitized subject
plus -provisioner, while the main public key and certificate carry the raw
request subject as their comment; no artifact carries any other comment. -/
theorem comment_assignment (ctx : Ctx) (k c a ac : SSHKey) :
    (ctx.isAddUser = true →
      WriteStep.fileWrite (baseNameOf ctx ++ "-provisioner.pub") 0o644
          (marshalPublicKey a (SanitizeSSHUserPrincipal ctx.subject ++ "-provisioner"))
        ∈ writePlan ctx k c a ac ∧
      WriteStep.fileWrite (baseNameOf ctx ++ "-provisioner-cert.pub") 0o644
          (marshalPublicKey ac (SanitizeSSHUserPrincipal ctx.subject ++ "-provisioner"))
        ∈ writePlan ctx k c a ac) ∧
    (ctx.isSign = false →
      WriteStep.fileWrite (pubFileOf ctx) 0o644 (marshalPublicKey k ctx.subject)
        ∈ writePlan ctx k c a ac) ∧
    (WriteStep.fileWrite (crtFileOf ctx) 0o644 (marshalPublicKey c ctx.subject)
        ∈ writePlan ctx k c a ac) ∧
    (∀ p m cont, WriteStep.fileWrite p m cont ∈ writePlan ctx k c a ac →
      cont = marshalPublicKey k ctx.subject ∨ cont = marshalPublicKey c ctx.subject ∨
        cont = marshalPublicKey a (SanitizeSSHUserPrincipal ctx.subject ++ "-provisioner") ∨
        cont = marshalPublicKey ac (SanitizeSSHUserPrincipal ctx.subject ++ "-provisioner")) := by
  refine ⟨?_, ?_, ?_, ?_⟩
  · intro ha
    constructor <;> simp [writePlan, ha, addUserIdOf]
  · intro hs
    simp [writePlan, hs]
  · simp [writePlan]
  · intro p m cont h
    rcases Bool.eq_false_or_eq_true ctx.isSign with hs | hs <;>
      rcases Bool.eq_false_or_eq_true ctx.isAddUser with ha | ha <;>
        simp [writePlan, hs, ha, addUserIdOf] at h <;>
        tauto

def ctxC7 : Ctx :=
  { subject := "mariano@work", keyFile := "id", token := "", isHost := false
  , isSign := false, isAddUser := true, principals := [], passwordFile := ""
  , provisionerPasswordFile := "", noPassword := false, insecure := false }

/-- C7 counterexample: with subject mariano at work and add-user mode, the
auxiliary public key file is written with the comment mariano-provisioner
and not with the raw subject plus -provisioner. -/
theorem aux_comment_not_raw_subject :
    ctxC7.subject = "mariano@work" ∧
    Effect.fsWrite "id-provisioner.pub" 0o644
        (marshalPublicKey ⟨"ssh-ed25519".data, "CCCC".data⟩ "mariano-provisioner")
      ∈ (sshCertificateAction ctxC7 oHappy).2 ∧
    Effect.fsWrite "id-provisioner.pub" 0o644
        (marshalPublicKey ⟨"ssh-ed25519".data, "CCCC".data⟩ "mariano@work-provisioner")
      ∉ (sshCertificateAction ctxC7 oHappy).2 :=
  ⟨rfl, by decide, by decide⟩

/-- C7 witness: the add-user run writes the auxiliary public key with the
sanitized provisioner comment and the certificate with the raw subject. -/
theorem comment_assignment_witness :
    WriteStep.fileWrite "id-provisioner.pub" 0o644
        (marshalPublicKey kDemo "mariano-provisioner")
      ∈ writePlan ctxC7 kDemo kDemo kDemo kDemo ∧
    WriteStep.fileWrite "id-cert.pub" 0o644 (marshalPublicKey kDemo "mariano@work")
      ∈ writePlan ctxC7 kDemo kDemo kDemo kDemo :=
  ⟨((comment_assignment ctxC7 kDemo kDemo kDemo kDemo).1 (by decide)).1,
    (comment_assignment ctxC7 kDemo kDemo kDemo kDemo).2.2.1⟩

/-- C8: a failing artifact write aborts the flow with that write error: the
failing path is the final attempted write, every earlier attempted write
succeeded and is left in place, and no later write is attempted; and
whenever some attempted write failed the action reports exactly that write
error. -/
theorem write_failure_abort_no_rollback (ctx : Ctx) (o : Oracles) :
    (∀ p, (sshCertificateAction ctx o).1 = .error (.write p) →
      o.writeOk p = false ∧
        ∃ pre, writeAttempts (sshCertificateAction ctx o).2 = pre ++ [p] ∧
          ∀ q ∈ pre, o.writeOk q = true) ∧
    (∀ q ∈ writeAttempts (sshCertificateAction ctx o).2, o.writeOk q = false →
      (sshCertificateAction ctx o).1 = .error (.write q)) :=
  action_write_abort ctx o

def ctxC8 : Ctx :=
  { subject := "alice", keyFile := "id8", token := "", isHost := false
  , isSign := false, isAddUser := false, principals := [], passwordFile := ""
  , provisionerPasswordFile := "", noPassword := false, insecure := false }

/-- Oracles whose file writes fail exactly at the public key path. -/
def oFailPub : Oracles :=
  { oHappy with writeOk := fun p => !(p == "id8.pub") }

/-- C8 witness: when the public key write fails, the action aborts with
that write error, the private key written before it stays, and the
certificate write is never attempted. -/
theorem write_failure_abort_no_rollback_witness :
    oFailPub.writeOk "id8.pub" = false ∧
      ∃ pre, writeAttempts (sshCertificateAction ctxC8 oFailPub).2 = pre ++ ["id8.pub"] ∧
        ∀ q ∈ pre, oFailPub.writeOk q = true :=
  (write_failure_abort_no_rollback ctxC8 oFailPub).1 "id8.pub" (by decide)

/-- C10: the token generation step observes the mutated password-file flag
value, namely the provisioner password file, while the encryption password
option of the generated private key is computed solely from the
password-file value read before the mutation together with the no-password
and insecure flags; the provisioner password file never selects the
private key encryption password. -/
theorem encryption_password_source_isolated (ctx : Ctx) (o : Oracles) :
    (∀ s, Effect.genToken s ∈ (sshCertificateAction ctx o).2 →
        s = ctx.provisionerPasswordFile) ∧
    (∀ m pw, Effect.serialize ctx.keyFile m pw ∈ (sshCertificateAction ctx o).2 →
        pw = (if ctx.noPassword = true ∧ ctx.insecure = true then PwOpt.noEnc
              else if ctx.passwordFile ≠ "" then PwOpt.file ctx.passwordFile
              else PwOpt.prompt)) := by
  constructor
  · intro s h
    exact action_genToken_mem ctx o s h
  · intro m pw h
    rcases (action_serialize_mem ctx o ctx.keyFile m pw h).2 with ⟨_, _, hpw⟩ | ⟨_, hp, _⟩
    · exact hpw
    · exact absurd hp (keyFile_ne_provisioner ctx)

def ctxC10 : Ctx :=
  { subject := "mariano@work", keyFile := "id_ecdsa", token := "", isHost := false
  , isSign := false, isAddUser := false, principals := [], passwordFile := ""
  , provisionerPasswordFile := "prov.txt", noPassword := false, insecure := false }

/-- C10 witness: with only a provisioner password file given, token
generation sees prov.txt while the private key password option is the
interactive prompt, not the provisioner file. -/
theorem encryption_password_source_isolated_witness :
    "prov.txt" = ctxC10.provisionerPasswordFile ∧
      PwOpt.prompt =
        (if ctxC10.noPassword = true ∧ ctxC10.insecure = true then PwOpt.noEnc
         else if ctxC10.passwordFile ≠ "" then PwOpt.file ctxC10.passwordFile
         else PwOpt.prompt) :=
  ⟨(encryption_password_source_isolated ctxC10 oHappy).1 "prov.txt" (by decide),
    (encryption_password_source_isolated ctxC10 oHappy).2 0o600 PwOpt.prompt (by decide)⟩

/-! ### Lemmas for the authorized-key round trip -/

theorem lastIndexOf_append_last (c : Char) (a : List Char) :
    lastIndexOf c (a ++ [c]) = some a.length := by
  induction a with
  | nil => simp [lastIndexOf]
  | cons x xs ih => simp [lastIndexOf, ih]

theorem takeUntil_append (c : Char) (a b : List Char) (h : c ∉ a) :
    takeUntil c (a ++ c :: b) = a := by
  induction a with
  | nil => simp [takeUntil]
  | cons x xs ih =>
    have hx : x ≠ c := fun hc => h (by simp [hc])
    simp only [List.cons_append, takeUntil, if_neg hx, List.append_eq]
    rw [ih (fun hc => h (by simp [hc]))]

theorem takeUntil_of_not_mem (c : Char) (l : List Char) (h : c ∉ l) :
    takeUntil c l = l := by
  induction l with
  | nil => rfl
  | cons x xs ih =>
    have hx : x ≠ c := fun hc => h (by simp [hc])
    simp only [takeUntil, if_neg hx, List.append_eq]
    rw [ih (fun hc => h (by simp [hc]))]

theorem length_dropWhile_le (p : Char → Bool) (l : List Char) :
    (l.dropWhile p).length ≤ l.length := by
  induction l with
  | nil => simp
  | cons x xs ih =>
    by_cases hx : p x
    · rw [List.dropWhile_cons_of_pos hx]
      exact Nat.le_trans ih (Nat.le_succ _)
    · rw [List.dropWhile_cons_of_neg hx]

theorem dropWhile_eq_self_head (p : Char → Bool) (c : Char) (r : List Char)
    (h : List.dropWhile p (c :: r) = c :: r) : p c = false := by
  by_cases hc : p c
  · rw [List.dropWhile_cons_of_pos hc] at h
    have := length_dropWhile_le p r
    rw [h] at this
    simp at this
  · exact Bool.eq_false_iff.mpr hc

theorem trimLeft_cons_of_neg (x : Char) (l : List Char) (h : isGoSpace x = false) :
    trimLeftSpace (x :: l) = x :: l := by
  unfold trimLeftSpace
  rw [List.dropWhile_cons_of_neg (by rw [h]; exact Bool.false_ne_true)]

theorem trimRight_append_last (A l : List Char) (c : Char) (r : List Char)
    (hl : l.reverse = c :: r) (hc : isGoSpace c = false) :
    trimRightSpace (A ++ l) = A ++ l := by
  unfold trimRightSpace
  rw [List.reverse_append, hl]
  rw [show (c :: r) ++ A.reverse = c :: (r ++ A.reverse) from rfl]
  rw [List.dropWhile_cons_of_neg (by rw [hc]; exact Bool.false_ne_true)]
  rw [show c :: (r ++ A.reverse) = (c :: r) ++ A.reverse from rfl]
  rw [← hl, ← List.reverse_append, List.reverse_reverse]

theorem trimRight_append_space (A : List Char) :
    trimRightSpace (A ++ [' ']) = trimRightSpace A := by
  unfold trimRightSpace
  rw [List.reverse_append]
  rw [show ([' '].reverse : List Char) = [' '] from rfl]
  rw [show ([' '] : List Char) ++ A.reverse = ' ' :: A.reverse from rfl]
  rw [List.dropWhile_cons_of_pos (by decide)]

theorem reverse_head_nonspace (l : List Char) (hne : l ≠ [])
    (h : ∀ x ∈ l, isGoSpace x = false) :
    ∃ c r, l.reverse = c :: r ∧ isGoSpace c = false := by
  cases hrev : l.reverse with
  | nil => exact absurd (List.reverse_eq_nil_iff.mp hrev) hne
  | cons c r =>
    refine ⟨c, r, rfl, h c ?_⟩
    rw [← List.mem_reverse, hrev]
    simp

theorem isSpaceTab_false_of_isGoSpace_false (c : Char) (h : isGoSpace c = false) :
    isSpaceTab c = false := by
  unfold isGoSpace at h
  unfold isSpaceTab
  simp only [Bool.or_eq_false_iff, decide_eq_false_iff_not] at h ⊢
  tauto

theorem ne_nl_of_isGoSpace_false (c : Char) (h : isGoSpace c = false) :
    c ≠ '\n' ∧ c ≠ '\r' := by
  unfold isGoSpace at h
  simp only [Bool.or_eq_false_iff, decide_eq_false_iff_not] at h
  tauto

theorem firstSpaceTab_append (a z : List Char) (h : ∀ x ∈ a, isSpaceTab x = false) :
    firstSpaceTab (a ++ ' ' :: z) = some a.length := by
  induction a with
  | nil => simp [firstSpaceTab, isSpaceTab]
  | cons x xs ih =>
    have hx := h x (by simp)
    simp only [List.cons_append, firstSpaceTab, hx, List.append_eq]
    rw [ih (fun y hy => h y (by simp [hy]))]
    simp

theorem firstSpaceTab_none (l : List Char) (h : ∀ x ∈ l, isSpaceTab x = false) :
    firstSpaceTab l = none := by
  induction l with
  | nil => rfl
  | cons x xs ih =>
    have hx := h x (by simp)
    simp only [firstSpaceTab, hx]
    rw [ih (fun y hy => h y (by simp [hy]))]
    rfl


theorem takeUntil_append_left (c : Char) (a b : List Char) (h : c ∉ a) :
    takeUntil c (a ++ b) = a ++ takeUntil c b := by
  induction a with
  | nil => simp
  | cons x xs ih =>
    have hx : x ≠ c := fun hc => h (by simp [hc])
    simp only [List.cons_append, takeUntil, if_neg hx, List.append_eq]
    rw [ih (fun hc => h (by simp [hc]))]

theorem takeUntil_snoc (c : Char) (l : List Char) :
    takeUntil c (l ++ [c]) = takeUntil c l := by
  induction l with
  | nil => simp [takeUntil]
  | cons x xs ih =>
    by_cases hx : x = c
    · simp [takeUntil, hx]
    · simp only [List.cons_append, takeUntil, if_neg hx, List.append_eq]
      rw [ih]

theorem length_takeUntil_le (c : Char) (l : List Char) :
    (takeUntil c l).length ≤ l.length := by
  induction l with
  | nil => simp [takeUntil]
  | cons x xs ih =>
    by_cases hx : x = c
    · simp [takeUntil, hx]
    · simp only [takeUntil, if_neg hx, List.length_cons]
      omega

theorem takeUntil_eq_of_length (c : Char) (l : List Char)
    (h : (takeUntil c l).length = l.length) : takeUntil c l = l := by
  induction l with
  | nil => rfl
  | cons x xs ih =>
    by_cases hx : x = c
    · simp [takeUntil, hx] at h
    · simp only [takeUntil, if_neg hx, List.length_cons] at h ⊢
      rw [ih (by omega)]

theorem not_mem_of_takeUntil_eq (c : Char) (l : List Char)
    (h : takeUntil c l = l) : c ∉ l := by
  induction l with
  | nil => simp
  | cons x xs ih =>
    by_cases hx : x = c
    · rw [show takeUntil c (x :: xs) = [] from by simp [takeUntil, hx]] at h
      exact absurd h (by simp)
    · simp only [takeUntil, if_neg hx, List.cons.injEq, true_and] at h
      intro hmem
      rcases List.mem_cons.mp hmem with hcc | hmem
      · exact hx hcc.symm
      · exact ih h hmem

theorem dropWhile_append_of_ne_nil (p : Char → Bool) (u v : List Char)
    (h : u.dropWhile p ≠ []) :
    (u ++ v).dropWhile p = u.dropWhile p ++ v := by
  induction u with
  | nil => exact absurd rfl h
  | cons x xs ih =>
    by_cases hx : p x
    · rw [List.dropWhile_cons_of_pos hx] at h
      rw [List.cons_append, List.dropWhile_cons_of_pos hx, List.dropWhile_cons_of_pos hx]
      exact ih h
    · rw [List.cons_append, List.dropWhile_cons_of_neg hx, List.dropWhile_cons_of_neg hx]
      simp

theorem dropWhile_append_of_all (p : Char → Bool) (u v : List Char)
    (h : ∀ x ∈ u, p x = true) :
    (u ++ v).dropWhile p = v.dropWhile p := by
  induction u with
  | nil => rfl
  | cons x xs ih =>
    rw [List.cons_append, List.dropWhile_cons_of_pos (h x (by simp))]
    exact ih (fun y hy => h y (by simp [hy]))

theorem all_of_dropWhile_eq_nil (p : Char → Bool) (u : List Char)
    (h : u.dropWhile p = []) : ∀ x ∈ u, p x = true := by
  induction u with
  | nil => simp
  | cons x xs ih =>
    by_cases hx : p x
    · rw [List.dropWhile_cons_of_pos hx] at h
      intro y hy
      rcases List.mem_cons.mp hy with rfl | hy
      · exact hx
      · exact ih h y hy
    · rw [List.dropWhile_cons_of_neg hx] at h
      cases h

theorem dropWhile_all_nil (p : Char → Bool) (u : List Char)
    (h : ∀ x ∈ u, p x = true) : u.dropWhile p = [] := by
  have h2 := dropWhile_append_of_all p u [] h
  simpa using h2

theorem dropWhile_head_false (p : Char → Bool) (u : List Char) (c : Char) (r : List Char)
    (h : u.dropWhile p = c :: r) : p c = false := by
  induction u with
  | nil => cases h
  | cons x xs ih =>
    by_cases hx : p x
    · rw [List.dropWhile_cons_of_pos hx] at h
      exact ih h
    · rw [List.dropWhile_cons_of_neg hx] at h
      obtain ⟨h1, h2⟩ := List.cons.inj h
      rw [← h1]
      simpa using hx

theorem dropWhile_eq_of_length (p : Char → Bool) (u : List Char)
    (h : (u.dropWhile p).length = u.length) : u.dropWhile p = u := by
  induction u with
  | nil => rfl
  | cons x xs ih =>
    by_cases hx : p x
    · rw [List.dropWhile_cons_of_pos hx] at h
      have h2 := length_dropWhile_le p xs
      exfalso
      simp only [List.length_cons] at h
      omega
    · rw [List.dropWhile_cons_of_neg hx]

theorem trimRight_cons (x : Char) (xs : List Char) :
    trimRightSpace (x :: xs) =
      (if trimRightSpace xs = [] then (if isGoSpace x then [] else [x])
       else x :: trimRightSpace xs) := by
  unfold trimRightSpace
  rw [show (x :: xs).reverse = xs.reverse ++ [x] from by simp]
  by_cases hxs : xs.reverse.dropWhile isGoSpace = []
  · rw [dropWhile_append_of_all isGoSpace xs.reverse [x]
      (all_of_dropWhile_eq_nil isGoSpace xs.reverse hxs)]
    rw [if_pos (show (xs.reverse.dropWhile isGoSpace).reverse = [] from by rw [hxs]; rfl)]
    by_cases hx : isGoSpace x
    · rw [List.dropWhile_cons_of_pos hx, if_pos hx]
      rfl
    · rw [List.dropWhile_cons_of_neg hx, if_neg hx]
      rfl
  · rw [dropWhile_append_of_ne_nil isGoSpace xs.reverse [x] hxs]
    rw [if_neg (fun hc => hxs (List.reverse_eq_nil_iff.mp hc))]
    simp

theorem trimRight_eq_nil_all (l : List Char) (h : trimRightSpace l = []) :
    ∀ x ∈ l, isGoSpace x = true := by
  unfold trimRightSpace at h
  have h2 := all_of_dropWhile_eq_nil isGoSpace l.reverse (List.reverse_eq_nil_iff.mp h)
  intro x hx
  exact h2 x (List.mem_reverse.mpr hx)

theorem trim_comm (l : List Char) :
    trimLeftSpace (trimRightSpace l) = trimRightSpace (trimLeftSpace l) := by
  induction l with
  | nil => rfl
  | cons x xs ih =>
    by_cases hx : isGoSpace x
    · have hleft : trimLeftSpace (x :: xs) = trimLeftSpace xs := by
        unfold trimLeftSpace
        rw [List.dropWhile_cons_of_pos hx]
      rw [hleft, trimRight_cons]
      by_cases hxs : trimRightSpace xs = []
      · rw [if_pos hxs, if_pos hx]
        have hall := trimRight_eq_nil_all xs hxs
        have hlnil : trimLeftSpace xs = [] := dropWhile_all_nil isGoSpace xs hall
        rw [hlnil]
        rfl
      · rw [if_neg hxs]
        have hstep : trimLeftSpace (x :: trimRightSpace xs) = trimLeftSpace (trimRightSpace xs) := by
          unfold trimLeftSpace
          rw [List.dropWhile_cons_of_pos hx]
        rw [hstep]
        exact ih
    · have hx2 : isGoSpace x = false := by simpa using hx
      rw [trimLeft_cons_of_neg x xs hx2, trimRight_cons]
      by_cases hxs : trimRightSpace xs = []
      · rw [if_pos hxs, if_neg hx]
        rw [trimLeft_cons_of_neg x [] hx2]
      · rw [if_neg hxs]
        rw [trimLeft_cons_of_neg x (trimRightSpace xs) hx2]

theorem dropWhile_idem (p : Char → Bool) (u : List Char) :
    (u.dropWhile p).dropWhile p = u.dropWhile p := by
  cases hdw : u.dropWhile p with
  | nil => rfl
  | cons c r =>
    rw [List.dropWhile_cons_of_neg]
    rw [dropWhile_head_false p u c r hdw]
    exact Bool.false_ne_true

theorem trimRight_idem (l : List Char) :
    trimRightSpace (trimRightSpace l) = trimRightSpace l := by
  unfold trimRightSpace
  rw [List.reverse_reverse]
  rw [dropWhile_idem]

theorem goTrimSpace_trimRight (l : List Char) :
    goTrimSpace (trimRightSpace l) = goTrimSpace l := by
  unfold goTrimSpace
  rw [trim_comm, trimRight_idem]

theorem trimRight_append_right_ne (a l : List Char) (h : trimRightSpace l ≠ []) :
    trimRightSpace (a ++ l) = a ++ trimRightSpace l := by
  have hdw : l.reverse.dropWhile isGoSpace ≠ [] := by
    intro hc
    exact h (by unfold trimRightSpace; rw [hc]; rfl)
  unfold trimRightSpace
  rw [List.reverse_append]
  rw [dropWhile_append_of_ne_nil isGoSpace l.reverse a.reverse hdw]
  rw [List.reverse_append, List.reverse_reverse]

theorem trimRight_append_right_all (a w : List Char) (h : ∀ x ∈ w, isGoSpace x = true) :
    trimRightSpace (a ++ w) = trimRightSpace a := by
  unfold trimRightSpace
  rw [List.reverse_append]
  rw [dropWhile_append_of_all isGoSpace w.reverse a.reverse
    (fun x hx => h x (List.mem_reverse.mp hx))]

theorem length_trimRight_le (l : List Char) :
    (trimRightSpace l).length ≤ l.length := by
  unfold trimRightSpace
  rw [List.length_reverse]
  calc (l.reverse.dropWhile isGoSpace).length
      ≤ l.reverse.length := length_dropWhile_le isGoSpace l.reverse
    _ = l.length := List.length_reverse l

theorem length_goTrimSpace_le (l : List Char) :
    (goTrimSpace l).length ≤ l.length := by
  unfold goTrimSpace
  calc (trimRightSpace (trimLeftSpace l)).length
      ≤ (trimLeftSpace l).length := length_trimRight_le _
    _ ≤ l.length := length_dropWhile_le isGoSpace l

theorem goTrimSpace_eq_self (l : List Char) (h : goTrimSpace l = l) :
    trimLeftSpace l = l ∧ trimRightSpace l = l := by
  have hc : (goTrimSpace l).length = l.length := by rw [h]
  have ha : (goTrimSpace l).length ≤ (trimLeftSpace l).length := by
    unfold goTrimSpace
    exact length_trimRight_le _
  have hb : (trimLeftSpace l).length ≤ l.length := length_dropWhile_le isGoSpace l
  have h1 : (trimLeftSpace l).length = l.length := by omega
  have h2 : trimLeftSpace l = l := dropWhile_eq_of_length isGoSpace l h1
  refine ⟨h2, ?_⟩
  unfold goTrimSpace at h
  rw [h2] at h
  exact h

theorem trimmedComment_eq_self_iff (s : String) :
    goTrimSpace (takeUntil '\r' (takeUntil '\n' s.data)) = s.data ↔
      ('\n' ∉ s.data ∧ '\r' ∉ s.data ∧ trimLeftSpace s.data = s.data ∧
        trimRightSpace s.data = s.data) := by
  constructor
  · intro h
    have hlen : s.data.length
        = (goTrimSpace (takeUntil '\r' (takeUntil '\n' s.data))).length := by
      rw [h]
    have l1 := length_takeUntil_le '\n' s.data
    have l2 := length_takeUntil_le '\r' (takeUntil '\n' s.data)
    have l3 := length_goTrimSpace_le (takeUntil '\r' (takeUntil '\n' s.data))
    have e1 : (takeUntil '\n' s.data).length = s.data.length := by omega
    have ht1 : takeUntil '\n' s.data = s.data := takeUntil_eq_of_length _ _ e1
    have hn : '\n' ∉ s.data := not_mem_of_takeUntil_eq _ _ ht1
    rw [ht1] at h hlen l2 l3
    have e2 : (takeUntil '\r' s.data).length = s.data.length := by omega
    have ht2 : takeUntil '\r' s.data = s.data := takeUntil_eq_of_length _ _ e2
    have hr : '\r' ∉ s.data := not_mem_of_takeUntil_eq _ _ ht2
    rw [ht2] at h
    obtain ⟨hl, hrr⟩ := goTrimSpace_eq_self s.data h
    exact ⟨hn, hr, hl, hrr⟩
  · rintro ⟨hn, hr, hl, hrr⟩
    rw [takeUntil_of_not_mem '\n' _ hn, takeUntil_of_not_mem '\r' _ hr]
    unfold goTrimSpace
    rw [hl, hrr]

theorem parse_marshal_general (k : SSHKey) (s : String)
    (hkt : k.keyType ≠ [])
    (hkts : ∀ ch ∈ k.keyType, isGoSpace ch = false)
    (hkth : k.keyType.head? ≠ some '#')
    (hb : k.blob64 ≠ [])
    (hbs : ∀ ch ∈ k.blob64, isGoSpace ch = false) :
    parseAuthorizedKey (marshalPublicKey k s)
      = some (k.keyType, k.blob64,
          goTrimSpace (takeUntil '\r' (takeUntil '\n' s.data))) := by
  obtain ⟨c0, kt2, hkteq⟩ : ∃ c0 kt2, k.keyType = c0 :: kt2 := by
    cases hkc : k.keyType with
    | nil => exact absurd hkc hkt
    | cons c0 kt2 => exact ⟨c0, kt2, rfl⟩
  obtain ⟨b0, b2, hbeq⟩ : ∃ b0 b2, k.blob64 = b0 :: b2 := by
    cases hbc : k.blob64 with
    | nil => exact absurd hbc hb
    | cons b0 b2 => exact ⟨b0, b2, rfl⟩
  have hc0 : isGoSpace c0 = false := hkts c0 (by rw [hkteq]; simp)
  have hb0 : isGoSpace b0 = false := hbs b0 (by rw [hbeq]; simp)
  have hc0hash : c0 ≠ '#' := by
    rw [hkteq] at hkth
    simpa using hkth
  have hassoc : marshalAuthorizedKey k = (k.keyType ++ ' ' :: k.blob64) ++ ['\n'] := by
    unfold marshalAuthorizedKey
    simp
  have hidx : lastIndexOf '\n' (marshalAuthorizedKey k)
      = some (k.keyType ++ ' ' :: k.blob64).length := by
    rw [hassoc]
    exact lastIndexOf_append_last '\n' _
  have hmarshal : marshalPublicKey k s
      = (k.keyType ++ ' ' :: k.blob64) ++ ' ' :: s.data ++ ['\n'] := by
    simp only [marshalPublicKey]
    rw [hidx]
    dsimp only
    rw [hassoc, List.take_left]
  have hAnl : '\n' ∉ k.keyType ++ ' ' :: k.blob64 := by
    intro hmem
    simp only [List.mem_append, List.mem_cons] at hmem
    rcases hmem with h | h | h
    · exact absurd (hkts _ h) (by decide)
    · exact absurd h (by decide)
    · exact absurd (hbs _ h) (by decide)
  have hAcr : '\r' ∉ k.keyType ++ ' ' :: k.blob64 := by
    intro hmem
    simp only [List.mem_append, List.mem_cons] at hmem
    rcases hmem with h | h | h
    · exact absurd (hkts _ h) (by decide)
    · exact absurd h (by decide)
    · exact absurd (hbs _ h) (by decide)
  have hline1 : takeUntil '\n' (marshalPublicKey k s)
      = (k.keyType ++ ' ' :: k.blob64) ++ ' ' :: takeUntil '\n' s.data := by
    rw [hmarshal]
    rw [show (k.keyType ++ ' ' :: k.blob64) ++ ' ' :: s.data ++ ['\n']
        = (k.keyType ++ ' ' :: k.blob64) ++ (' ' :: (s.data ++ ['\n'])) from by simp]
    rw [takeUntil_append_left '\n' _ _ hAnl]
    rw [show takeUntil '\n' (' ' :: (s.data ++ ['\n']))
        = ' ' :: takeUntil '\n' (s.data ++ ['\n']) from by simp [takeUntil]]
    rw [takeUntil_snoc]
  set T : List Char := takeUntil '\r' (takeUntil '\n' s.data) with hTdef
  have hline2 : takeUntil '\r' ((k.keyType ++ ' ' :: k.blob64) ++ ' ' :: takeUntil '\n' s.data)
      = (k.keyType ++ ' ' :: k.blob64) ++ ' ' :: T := by
    rw [takeUntil_append_left '\r' _ _ hAcr]
    rw [show takeUntil '\r' (' ' :: takeUntil '\n' s.data)
        = ' ' :: takeUntil '\r' (takeUntil '\n' s.data) from by simp [takeUntil]]
  have htl : trimLeftSpace ((k.keyType ++ ' ' :: k.blob64) ++ ' ' :: T)
      = (k.keyType ++ ' ' :: k.blob64) ++ ' ' :: T := by
    rw [hkteq]
    exact trimLeft_cons_of_neg c0 _ hc0
  have htrA : trimRightSpace (k.keyType ++ ' ' :: k.blob64) = k.keyType ++ ' ' :: k.blob64 := by
    obtain ⟨c, r, hrev, hc⟩ := reverse_head_nonspace k.blob64 hb hbs
    rw [show k.keyType ++ ' ' :: k.blob64 = (k.keyType ++ [' ']) ++ k.blob64 from by simp]
    exact trimRight_append_last _ _ c r hrev hc
  by_cases hTnil : trimRightSpace T = []
  · have hallT : ∀ x ∈ T, isGoSpace x = true := trimRight_eq_nil_all T hTnil
    have htr : trimRightSpace ((k.keyType ++ ' ' :: k.blob64) ++ ' ' :: T)
        = k.keyType ++ ' ' :: k.blob64 := by
      rw [trimRight_append_right_all _ (' ' :: T)
        (fun x hx => by
          rcases List.mem_cons.mp hx with rfl | hx2
          · decide
          · exact hallT x hx2)]
      exact htrA
    have hcommentnil : goTrimSpace T = [] := by
      unfold goTrimSpace
      rw [show trimLeftSpace T = [] from dropWhile_all_nil isGoSpace T hallT]
      rfl
    have hline : goTrimSpace (takeUntil '\r' (takeUntil '\n' (marshalPublicKey k s)))
        = k.keyType ++ ' ' :: k.blob64 := by
      rw [hline1, hline2]
      unfold goTrimSpace
      rw [htl]
      exact htr
    simp only [parseAuthorizedKey]
    rw [hline]
    rw [show k.keyType ++ ' ' :: k.blob64 = c0 :: (kt2 ++ ' ' :: k.blob64) from by
      rw [hkteq]; rfl]
    dsimp only
    rw [if_neg hc0hash]
    rw [show c0 :: (kt2 ++ ' ' :: k.blob64) = k.keyType ++ ' ' :: k.blob64 from by
      rw [hkteq]; rfl]
    have hfst : firstSpaceTab (k.keyType ++ ' ' :: k.blob64) = some k.keyType.length :=
      firstSpaceTab_append _ _ (fun x hx => isSpaceTab_false_of_isGoSpace_false x (hkts x hx))
    rw [hfst]
    dsimp only
    rw [List.take_left, List.drop_left]
    have hrest : goTrimSpace (' ' :: k.blob64) = k.blob64 := by
      unfold goTrimSpace
      rw [show trimLeftSpace (' ' :: k.blob64) = trimLeftSpace k.blob64 from by
        unfold trimLeftSpace
        rw [List.dropWhile_cons_of_pos (by decide)]]
      rw [show trimLeftSpace k.blob64 = k.blob64 from by
        rw [hbeq]
        exact trimLeft_cons_of_neg b0 _ hb0]
      obtain ⟨c, r, hrev, hc⟩ := reverse_head_nonspace k.blob64 hb hbs
      have h2 := trimRight_append_last [] k.blob64 c r hrev hc
      simpa using h2
    rw [hrest]
    have hfst2 : firstSpaceTab k.blob64 = none :=
      firstSpaceTab_none _ (fun x hx => isSpaceTab_false_of_isGoSpace_false x (hbs x hx))
    rw [hfst2]
    dsimp only [Option.getD]
    rw [List.take_length, List.drop_length]
    rw [if_neg hb]
    rw [show goTrimSpace ([] : List Char) = [] from rfl, hcommentnil]
  · have hrr : (trimRightSpace T).reverse = T.reverse.dropWhile isGoSpace := by
      unfold trimRightSpace
      rw [List.reverse_reverse]
    obtain ⟨c, r, hrev, hc⟩ :
        ∃ c r, (trimRightSpace T).reverse = c :: r ∧ isGoSpace c = false := by
      cases hdw : T.reverse.dropWhile isGoSpace with
      | nil => exact absurd (by unfold trimRightSpace; rw [hdw]; rfl) hTnil
      | cons c r =>
        exact ⟨c, r, by rw [hrr, hdw], dropWhile_head_false isGoSpace T.reverse c r hdw⟩
    have htrcons : trimRightSpace (' ' :: T) = ' ' :: trimRightSpace T := by
      rw [trimRight_cons, if_neg hTnil]
    have htr : trimRightSpace ((k.keyType ++ ' ' :: k.blob64) ++ ' ' :: T)
        = (k.keyType ++ ' ' :: k.blob64) ++ ' ' :: trimRightSpace T := by
      rw [trimRight_append_right_ne _ (' ' :: T) (by rw [htrcons]; simp)]
      rw [htrcons]
    have hline : goTrimSpace (takeUntil '\r' (takeUntil '\n' (marshalPublicKey k s)))
        = (k.keyType ++ ' ' :: k.blob64) ++ ' ' :: trimRightSpace T := by
      rw [hline1, hline2]
      unfold goTrimSpace
      rw [htl]
      exact htr
    simp only [parseAuthorizedKey]
    rw [hline]
    rw [show (k.keyType ++ ' ' :: k.blob64) ++ ' ' :: trimRightSpace T
        = c0 :: ((kt2 ++ ' ' :: k.blob64) ++ ' ' :: trimRightSpace T) from by
      rw [hkteq]; rfl]
    dsimp only
    rw [if_neg hc0hash]
    rw [show c0 :: ((kt2 ++ ' ' :: k.blob64) ++ ' ' :: trimRightSpace T)
        = k.keyType ++ ' ' :: (k.blob64 ++ ' ' :: trimRightSpace T) from by
      rw [hkteq]; simp]
    have hfst : firstSpaceTab (k.keyType ++ ' ' :: (k.blob64 ++ ' ' :: trimRightSpace T))
        = some k.keyType.length :=
      firstSpaceTab_append _ _ (fun x hx => isSpaceTab_false_of_isGoSpace_false x (hkts x hx))
    rw [hfst]
    dsimp only
    rw [List.take_left, List.drop_left]
    have hrest : goTrimSpace (' ' :: (k.blob64 ++ ' ' :: trimRightSpace T))
        = k.blob64 ++ ' ' :: trimRightSpace T := by
      unfold goTrimSpace
      rw [show trimLeftSpace (' ' :: (k.blob64 ++ ' ' :: trimRightSpace T))
          = trimLeftSpace (k.blob64 ++ ' ' :: trimRightSpace T) from by
        unfold trimLeftSpace
        rw [List.dropWhile_cons_of_pos (by decide)]]
      rw [show trimLeftSpace (k.blob64 ++ ' ' :: trimRightSpace T)
          = k.blob64 ++ ' ' :: trimRightSpace T from by
        rw [hbeq]
        exact trimLeft_cons_of_neg b0 _ hb0]
      rw [show k.blob64 ++ ' ' :: trimRightSpace T
          = (k.blob64 ++ [' ']) ++ trimRightSpace T from by simp]
      exact trimRight_append_last _ _ c r hrev hc
    rw [hrest]
    have hfst2 : firstSpaceTab (k.blob64 ++ ' ' :: trimRightSpace T)
        = some k.blob64.length :=
      firstSpaceTab_append _ _ (fun x hx => isSpaceTab_false_of_isGoSpace_false x (hbs x hx))
    rw [hfst2]
    dsimp only [Option.getD]
    rw [List.take_left, List.drop_left]
    rw [if_neg hb]
    have hcomment : goTrimSpace (' ' :: trimRightSpace T) = goTrimSpace T := by
      have hstep : goTrimSpace (' ' :: trimRightSpace T)
          = goTrimSpace (trimRightSpace T) := by
        unfold goTrimSpace trimLeftSpace
        rw [List.dropWhile_cons_of_pos (by decide)]
      rw [hstep]
      exact goTrimSpace_trimRight T
    rw [hcomment]

/-- C9 (amended): for every well-formed key (nonempty, whitespace-free key
type and base64 blob, the key type not beginning with the comment marker)
and every subject whatsoever, re-parsing the serialized authorized-key text
yields exactly the same key type and key bytes, and the parsed comment is
the subject truncated at its first newline or carriage return and stripped
of leading and trailing whitespace; consequently the comment equals the
supplied subject exactly when the subject contains no newline or carriage
return and carries no leading or trailing whitespace. -/
theorem roundtrip_authorized_key (k : SSHKey) (s : String)
    (hkt : k.keyType ≠ [])
    (hkts : ∀ ch ∈ k.keyType, isGoSpace ch = false)
    (hkth : k.keyType.head? ≠ some '#')
    (hb : k.blob64 ≠ [])
    (hbs : ∀ ch ∈ k.blob64, isGoSpace ch = false) :
    (parseAuthorizedKey (marshalPublicKey k s)
        = some (k.keyType, k.blob64,
            goTrimSpace (takeUntil '\r' (takeUntil '\n' s.data)))) ∧
    (goTrimSpace (takeUntil '\r' (takeUntil '\n' s.data)) = s.data ↔
      ('\n' ∉ s.data ∧ '\r' ∉ s.data ∧ trimLeftSpace s.data = s.data ∧
        trimRightSpace s.data = s.data)) :=
  ⟨parse_marshal_general k s hkt hkts hkth hb hbs, trimmedComment_eq_self_iff s⟩

/-- C9 counterexample: serializing with the subject x followed by a space
and re-parsing yields the comment x with the trailing space trimmed away,
not a comment equal to the supplied subject. -/
theorem roundtrip_trims_comment :
    parseAuthorizedKey (marshalPublicKey ⟨"ssh-ed25519".data, "AAAA".data⟩ "x ")
        = some ("ssh-ed25519".data, "AAAA".data, "x".data) ∧
      "x".data ≠ "x ".data := ⟨by decide, by decide⟩

/-- C9 witness: at a concrete key, the subject x-space round-trips to the
same key bytes with the trimmed comment x, and the subject mariano is its
own trimmed truncation, so its comment is recovered exactly. -/
theorem roundtrip_authorized_key_witness :
    parseAuthorizedKey (marshalPublicKey ⟨"ssh-ed25519".data, "AAAA".data⟩ "x ")
        = some ("ssh-ed25519".data, "AAAA".data, "x".data) ∧
    goTrimSpace (takeUntil '\r' (takeUntil '\n' "mariano".data)) = "mariano".data :=
  ⟨(roundtrip_authorized_key ⟨"ssh-ed25519".data, "AAAA".data⟩ "x " (by decide) (by decide)
      (by decide) (by decide) (by decide)).1,
   (roundtrip_authorized_key ⟨"ssh-ed25519".data, "AAAA".data⟩ "mariano" (by decide) (by decide)
      (by decide) (by decide) (by decide)).2.mpr (by decide)⟩
